import Mathlib

/-!
Formal model of the music-sorter batch pipeline: content fingerprinting
(utils/hashing.py), the locality-ordered walker (utils/io_optimizer.py),
the indexer state machine (modules/indexer.py), the duplicate detector
(modules/deduplicator.py) and the migrator (modules/migrator.py), together
with theorems settling the behavioural claims about them.

Machine strings are modelled as Lean `String` manipulated through their
underlying character lists; the MD5 digest is abstracted as a parameter
`H : String → String` (the claims under study never depend on properties of
the digest function itself).
-/

/-! ## Content fingerprinter (utils/hashing.py) -/

/-- Model of a source file as seen through the OS calls used by
`calculate_file_hash`: `content` is the byte stream obtained by opening and
reading the file (`none` when `open`/`read` raises `OSError`), `statSize` is
`stat().st_size` (`none` when `stat` raises). -/
structure SrcFile where
  content : Option String
  statSize : Option Nat
deriving DecidableEq, Repr

/-- Python `f.read(n)`: the first `n` characters of the stream. -/
def pyRead (s : String) (n : Nat) : String :=
  String.mk (s.data.take n)

/-- utils/hashing.py `calculate_file_hash`: reads the first
`chunk_size` bytes; when the chunk is non-empty it feeds the chunk and then
the decimal string of `stat().st_size` to the hasher; returns the hex digest,
or `None` when any of the I/O calls raises.  The digest function is the
abstract `H`.  Note the guard `if chunk:`: for an empty chunk neither the
chunk nor the size is hashed, and `stat` is never called. -/
def calculate_file_hash (H : String → String) (chunk_size : Nat) (f : SrcFile) :
    Option String :=
  match f.content with
  | none => none
  | some data =>
    let chunk := pyRead data chunk_size
    if chunk.data.isEmpty then some (H "")
    else
      match f.statSize with
      | none => none
      | some sz => some (H (chunk ++ Nat.repr sz))

/-- C7: as stated, the claim asserts that every readable file (content and
stat available) hashes to `H (first chunk ++ decimal size)`, including empty
files.  This is false: for an empty file the code skips both hasher updates
and returns the digest of the empty string, not of `"" ++ "0"`.
Counterexample with `H := id`, chunk size 4 and an empty file of size 0:
the code returns the digest of `""` whereas the claim predicts the digest of
`"0"`. -/
theorem c7_counterexample :
    calculate_file_hash id 4 ⟨some "", some 0⟩ ≠
      some (id (pyRead "" 4 ++ Nat.repr 0)) := by
  decide

/-- C7 (amended): for a readable file whose first chunk is non-empty, the
result is the digest of the chunk followed by the decimal size string, and a
`stat` failure yields `null`; for a readable file whose first chunk is empty
the result is the digest of the empty string (size is not mixed in and
`stat` is not consulted); a read failure yields `null`. -/
theorem c7_amended (H : String → String) (chunk_size : Nat) (f : SrcFile)
    (data : String) (hread : f.content = some data) :
    (¬ (pyRead data chunk_size).data.isEmpty →
        calculate_file_hash H chunk_size f =
          (f.statSize.map fun sz => H (pyRead data chunk_size ++ Nat.repr sz)))
    ∧ ((pyRead data chunk_size).data.isEmpty →
        calculate_file_hash H chunk_size f = some (H ""))
    ∧ ∀ g : SrcFile, g.content = none → calculate_file_hash H chunk_size g = none := by
  refine ⟨?_, ?_, ?_⟩
  · intro hne
    cases hsz : f.statSize with
    | none => simp [calculate_file_hash, hread, hne, hsz]
    | some sz => simp [calculate_file_hash, hread, hne, hsz]
  · intro he
    simp [calculate_file_hash, hread, he]
  · intro g hg
    simp [calculate_file_hash, hg]

/-- C7 witness: the amended theorem applied to a concrete readable file
"abcdef" of size 6 with digest function `id` and chunk size 4. -/
theorem c7_amended_witness :
    calculate_file_hash id 4 ⟨some "abcdef", some 6⟩ = some "abcd6" := by
  have h := (c7_amended id 4 ⟨some "abcdef", some 6⟩ "abcdef" rfl).1 (by decide)
  simpa using h

/-! ## Locality-ordered walker (utils/io_optimizer.py) -/

/-- Index of the last occurrence of `c` in `cs` (Python `str.rfind`). -/
def rfindChar (c : Char) : List Char → Option Nat
  | [] => none
  | a :: rest =>
    match rfindChar c rest with
    | some i => some (i + 1)
    | none => if a = c then some 0 else none

/-- pathlib `Path(name).suffix`: the substring from the last dot of the final
component, provided that dot is neither the first nor the last character. -/
def pySuffix (name : String) : String :=
  match rfindChar '.' name.data with
  | none => ""
  | some i =>
    if 0 < i ∧ i + 1 < name.data.length then String.mk (name.data.drop i) else ""

/-- pathlib `Path(name).stem`: the name with its suffix removed. -/
def pyStem (name : String) : String :=
  match rfindChar '.' name.data with
  | none => name
  | some i =>
    if 0 < i ∧ i + 1 < name.data.length then String.mk (name.data.take i) else name

/-- Python `str.lower` (ASCII case folding, enough for file extensions). -/
def pyLower (s : String) : String :=
  String.mk (s.data.map Char.toLower)

/-- The fixed audio-extension set of utils/io_optimizer.py. -/
def audio_extensions : List String :=
  [".mp3", ".wav", ".flac", ".m4a", ".aac", ".ogg", ".wma"]

/-- The filter `file_path.suffix.lower() in {...}`. -/
def isAudioFile (filename : String) : Bool :=
  audio_extensions.contains (pyLower (pySuffix filename))

/-- `root_path / file`. -/
def joinPath (dir name : String) : String := dir ++ "/" ++ name

/-- Boolean string order used to model Python `sorted` on path strings. -/
def strLeB (a b : String) : Bool := decide (a ≤ b)

/-- utils/io_optimizer.py `get_files_sorted_by_location`, over the output of
`os.walk` modelled as a list of `(root, files-in-OS-order)` entries (each
directory occurs exactly once in an `os.walk` of a tree): audio files are
bucketed by their parent directory (full joined paths, as the code stores
`root_path / file`), then buckets are emitted sorted by directory path and
each bucket's paths are emitted sorted. -/
def get_files_sorted_by_location (walk : List (String × List String)) :
    List String :=
  let buckets := (walk.map fun e => (e.1, (e.2.filter isAudioFile).map (joinPath e.1))).filter
    fun b => !b.2.isEmpty
  (buckets.mergeSort fun a b => strLeB a.1 b.1).flatMap fun b => b.2.mergeSort strLeB

/-- Modelled from the spec's words, for comparison with the code: bucket the
matching files, emit buckets in lexicographic order of directory path and,
within each bucket, emit FILENAMES in lexicographic order (joined to their
directory afterwards). -/
def walkerSpecOrder (walk : List (String × List String)) : List String :=
  let buckets := (walk.map fun e => (e.1, e.2.filter isAudioFile)).filter
    fun b => !b.2.isEmpty
  (buckets.mergeSort fun a b => strLeB a.1 b.1).flatMap
    fun b => (b.2.mergeSort strLeB).map (joinPath b.1)

theorem lex_append_left_iff (p a b : List Char) :
    List.Lex (· < ·) (p ++ a) (p ++ b) ↔ List.Lex (· < ·) a b := by
  induction p with
  | nil => simp
  | cons c rest ih =>
    simpa [List.cons_append, List.Lex.cons_iff] using ih

theorem string_toList_append (p a : String) :
    (p ++ a).toList = p.toList ++ a.toList := String.data_append p a

theorem list_le_append_left_iff (p a b : List Char) :
    p ++ a ≤ p ++ b ↔ a ≤ b := by
  rw [← not_lt, ← not_lt]
  exact not_congr (show p ++ b < p ++ a ↔ b < a from lex_append_left_iff p b a)

theorem string_append_le_append_left (p a b : String) :
    p ++ a ≤ p ++ b ↔ a ≤ b := by
  rw [String.le_iff_toList_le, String.le_iff_toList_le, string_toList_append,
    string_toList_append, list_le_append_left_iff]

/-- Joining a fixed directory preserves the comparator used by the walker. -/
theorem strLeB_joinPath (d a b : String) :
    strLeB a b = strLeB (joinPath d a) (joinPath d b) := by
  have h : joinPath d a = (d ++ "/") ++ a := by
    simp [joinPath, String.append_assoc]
  have h2 : joinPath d b = (d ++ "/") ++ b := by
    simp [joinPath, String.append_assoc]
  rw [h, h2]
  simp only [strLeB]
  by_cases hab : a ≤ b
  · simp [hab, (string_append_le_append_left (d ++ "/") a b).mpr hab]
  · have : ¬ (d ++ "/") ++ a ≤ (d ++ "/") ++ b := fun hc =>
      hab ((string_append_le_append_left (d ++ "/") a b).mp hc)
    simp [hab, this]

theorem flatMap_map_eq {α β γ : Type} (l : List α) (f : α → β) (g : β → List γ) :
    (l.map f).flatMap g = l.flatMap fun a => g (f a) := by
  induction l with
  | nil => rfl
  | cons a t ih => simp [ih]

/-- C8: the walker's output is exactly the audio-extension files of the tree,
emitted bucketed by immediate parent directory, buckets in lexicographic
order of directory path and files within a bucket in lexicographic order of
filename (equality with the spec-side ordering `walkerSpecOrder`), and its
members are exactly the joined paths of the audio files of the walk. -/
theorem c8_walker_output (walk : List (String × List String)) :
    get_files_sorted_by_location walk = walkerSpecOrder walk ∧
    ∀ x, (x ∈ get_files_sorted_by_location walk ↔
      ∃ e ∈ walk, ∃ name ∈ e.2, isAudioFile name ∧ x = joinPath e.1 name) := by
  have key : get_files_sorted_by_location walk = walkerSpecOrder walk := by
    unfold get_files_sorted_by_location walkerSpecOrder
    dsimp only
    have hmapF : (walk.map fun e => (e.1, (e.2.filter isAudioFile).map (joinPath e.1)))
        = (walk.map fun e => (e.1, e.2.filter isAudioFile)).map
            fun b => (b.1, b.2.map (joinPath b.1)) := by
      rw [List.map_map]
      rfl
    rw [hmapF, List.filter_map]
    have hpred : ((fun b : String × List String => !b.2.isEmpty) ∘
        fun b : String × List String => (b.1, b.2.map (joinPath b.1)))
        = fun b : String × List String => !b.2.isEmpty := by
      funext b
      cases h : b.2 <;> simp [Function.comp, h]
    rw [hpred]
    have hs1 := @List.map_mergeSort (String × List String) (String × List String)
      (fun a b => strLeB a.1 b.1) (fun a b => strLeB a.1 b.1)
      (fun b => (b.1, b.2.map (joinPath b.1)))
      ((walk.map fun e => (e.1, e.2.filter isAudioFile)).filter fun b => !b.2.isEmpty)
      (fun a _ b _ => rfl)
    rw [← hs1, flatMap_map_eq]
    congr 1
    funext b
    exact (@List.map_mergeSort String String strLeB strLeB (joinPath b.1) b.2
      fun a _ c _ => strLeB_joinPath b.1 a c).symm
  refine ⟨key, fun x => ?_⟩
  rw [key]
  unfold walkerSpecOrder
  simp only [List.mem_flatMap, List.mem_mergeSort, List.mem_filter, List.mem_map]
  constructor
  · rintro ⟨b, ⟨⟨e, he, rfl⟩, -⟩, hx⟩
    rcases hx with ⟨name, hname, rfl⟩
    rcases List.mem_filter.mp hname with ⟨hmem, haud⟩
    exact ⟨e, he, name, hmem, haud, rfl⟩
  · rintro ⟨e, he, name, hmem, haud, rfl⟩
    refine ⟨(e.1, e.2.filter isAudioFile), ⟨⟨e, he, rfl⟩, ?_⟩,
      ⟨name, List.mem_filter.mpr ⟨hmem, haud⟩, rfl⟩⟩
    have : name ∈ e.2.filter isAudioFile := List.mem_filter.mpr ⟨hmem, haud⟩
    cases h : e.2.filter isAudioFile with
    | nil => rw [h] at this; cases this
    | cons a t => simp [h]

/-! ## Migrator path computation (modules/migrator.py) -/

/-- The illegal character set of `_sanitize_name` (note it includes the
slash). -/
def sanitize_illegal_chars : List Char := ['<', '>', ':', '"', '|', '?', '*', '/']

/-- The illegal character set of `optimize_path_for_windows` (no slash). -/
def windows_illegal_chars : List Char := ['<', '>', ':', '"', '|', '?', '*']

def replaceIllegal (cs : List Char) : List Char :=
  cs.map fun c => if sanitize_illegal_chars.contains c then '_' else c

def isDotSpace (c : Char) : Bool := c = '.' || c = ' '

/-- Python `str.strip('. ')`. -/
def pyStripDotSpace (cs : List Char) : List Char :=
  ((cs.dropWhile isDotSpace).reverse.dropWhile isDotSpace).reverse

/-- Python regex `\s` over ASCII text. -/
def pyIsSpace (c : Char) : Bool :=
  c = ' ' || c = '\t' || c = '\n' || c = '\r' || c = '\x0B' || c = '\x0C'

def isSpaceOrUnderscore (c : Char) : Bool := pyIsSpace c || c = '_'

/-- Python `re.sub` of one-or-more whitespace/underscore runs by a single
space: the boolean records whether we are inside a run. -/
def collapseRunsAux : Bool → List Char → List Char
  | _, [] => []
  | inRun, c :: rest =>
    if isSpaceOrUnderscore c then
      if inRun then collapseRunsAux true rest
      else ' ' :: collapseRunsAux true rest
    else c :: collapseRunsAux false rest

def collapseRuns (cs : List Char) : List Char := collapseRunsAux false cs

/-- modules/migrator.py `_sanitize_name`: replace each illegal character by
an underscore, strip leading/trailing dots and spaces, truncate to 100
characters, then replace every whitespace/underscore run by a single
space (in that order: the truncation happens before the run collapsing). -/
def sanitize_name (name : String) : String :=
  String.mk (collapseRuns ((pyStripDotSpace (replaceIllegal name.data)).take 100))

/-- pathlib `.name`: the part after the last slash. -/
def pathBasename (s : String) : String :=
  match rfindChar '/' s.data with
  | none => s
  | some i => String.mk (s.data.drop (i + 1))

/-- utils/io_optimizer.py `optimize_path_for_windows`: replace Windows-illegal
characters, strip trailing dots/spaces, cap the length at 250 preserving the
extension of the (already modified) string. -/
def optimize_path_for_windows (path : String) : String :=
  let p1 : List Char := path.data.map fun c =>
    if windows_illegal_chars.contains c then '_' else c
  let p2 := (p1.reverse.dropWhile isDotSpace).reverse
  if p2.length > 250 then
    let ext := (pySuffix (String.mk p2)).data
    String.mk (p2.take (250 - ext.length) ++ ext)
  else String.mk p2

/-- Catalog `files` row (database/models.py `File`), restricted to the
attributes the pipeline reads. -/
structure FileRec where
  id : Nat
  source_path : String
  file_size : Nat
  status : String
  file_hash : Option String
deriving DecidableEq, Repr

/-- Catalog `metadata` row, restricted to the attribute the migrator reads. -/
structure MetadataRec where
  file_id : Nat
  artist : Option String
deriving DecidableEq, Repr

/-- modules/migrator.py `_get_target_path`: `target_base / artist / filename`
with the artist folder sanitised and the original filename kept (Windows
optimised).  Python truthiness: a missing or empty artist tag falls back to
"Unknown". -/
def get_target_path (target_base : String) (meta : Option MetadataRec)
    (f : FileRec) : String :=
  let artist := match meta with
    | some m =>
      match m.artist with
      | some a => if a.data.isEmpty then "Unknown" else sanitize_name a
      | none => "Unknown"
    | none => "Unknown"
  let filename := optimize_path_for_windows (pathBasename f.source_path)
  target_base ++ "/" ++ artist ++ "/" ++ filename

theorem collapseRunsAux_length_le (b : Bool) (cs : List Char) :
    (collapseRunsAux b cs).length ≤ cs.length := by
  induction cs generalizing b with
  | nil => simp [collapseRunsAux]
  | cons c rest ih =>
    by_cases h : isSpaceOrUnderscore c = true
    · cases b with
      | false =>
        simp only [collapseRunsAux, h, if_true, List.length_cons]
        exact Nat.succ_le_succ (ih true)
      | true =>
        simp only [collapseRunsAux, h, if_true, List.length_cons]
        exact Nat.le_succ_of_le (ih true)
    · simp only [collapseRunsAux, h, if_false, List.length_cons]
      exact Nat.succ_le_succ (ih false)

theorem collapseRunsAux_mem (b : Bool) (cs : List Char) :
    ∀ c ∈ collapseRunsAux b cs, c = ' ' ∨ (c ∈ cs ∧ isSpaceOrUnderscore c = false) := by
  induction cs generalizing b with
  | nil =>
    intro c hc
    simp [collapseRunsAux] at hc
  | cons a rest ih =>
    intro c hc
    by_cases h : isSpaceOrUnderscore a = true
    · cases b with
      | false =>
        simp [collapseRunsAux, h] at hc
        rcases hc with rfl | hc
        · exact Or.inl rfl
        · rcases ih true c hc with h1 | ⟨h1, h2⟩
          · exact Or.inl h1
          · exact Or.inr ⟨List.mem_cons_of_mem a h1, h2⟩
      | true =>
        simp [collapseRunsAux, h] at hc
        rcases ih true c hc with h1 | ⟨h1, h2⟩
        · exact Or.inl h1
        · exact Or.inr ⟨List.mem_cons_of_mem a h1, h2⟩
    · simp [collapseRunsAux, h] at hc
      rcases hc with rfl | hc
      · exact Or.inr ⟨List.mem_cons_self c rest, by simpa using h⟩
      · rcases ih false c hc with h1 | ⟨h1, h2⟩
        · exact Or.inl h1
        · exact Or.inr ⟨List.mem_cons_of_mem a h1, h2⟩

theorem replaceIllegal_not_illegal (cs : List Char) (c : Char)
    (hc : c ∈ replaceIllegal cs) : sanitize_illegal_chars.contains c = false := by
  rcases List.mem_map.mp hc with ⟨a, -, rfl⟩
  by_cases h : sanitize_illegal_chars.contains a = true
  · rw [if_pos h]
    decide
  · rw [if_neg h]
    simpa using h

theorem pyStripDotSpace_mem (cs : List Char) (c : Char)
    (hc : c ∈ pyStripDotSpace cs) : c ∈ cs := by
  unfold pyStripDotSpace at hc
  rw [List.mem_reverse] at hc
  have h1 : c ∈ (cs.dropWhile isDotSpace).reverse :=
    (List.dropWhile_sublist _).mem hc
  rw [List.mem_reverse] at h1
  exact (List.dropWhile_sublist _).mem h1

/-- C6 (counterexample): for a file whose metadata artist is "A/C" the
computed target folder is "A C", not "A_C": the final `re.sub` of
`_sanitize_name` collapses the underscore produced for the slash into a
space.  Claim C6's concrete expectation `A_C` is therefore false. -/
theorem c6_counterexample :
    get_target_path "T" (some ⟨7, some "A/C"⟩) ⟨1, "/src/song.mp3", 10, "indexed", none⟩
        = "T/A C/song.mp3"
    ∧ "T/A C/song.mp3" ≠ "T/A_C/song.mp3" := by
  constructor
  · decide
  · decide

/-- C6 (amended): the artist-folder sanitiser replaces filesystem-illegal
characters by underscores, trims leading/trailing dots and spaces, truncates
to 100 characters and then collapses every run of whitespace AND underscores
into a single space; consequently the result contains no illegal character
and no underscore and is at most 100 characters long, and the folder
computed for artist "A/C" is exactly "A C". -/
theorem c6_amended (name : String) :
    (∀ c ∈ (sanitize_name name).data,
        sanitize_illegal_chars.contains c = false ∧ c ≠ '_')
    ∧ (sanitize_name name).data.length ≤ 100
    ∧ sanitize_name "A/C" = "A C" := by
  refine ⟨?_, ?_, by decide⟩
  · intro c hc
    have hc' : c ∈ collapseRunsAux false
        ((pyStripDotSpace (replaceIllegal name.data)).take 100) := hc
    rcases collapseRunsAux_mem false _ c hc' with rfl | ⟨hmem, hns⟩
    · exact ⟨by decide, by decide⟩
    · have h1 : c ∈ pyStripDotSpace (replaceIllegal name.data) :=
        List.mem_of_mem_take hmem
      have h2 : c ∈ replaceIllegal name.data := pyStripDotSpace_mem _ _ h1
      refine ⟨replaceIllegal_not_illegal _ _ h2, ?_⟩
      intro hequ
      subst hequ
      exact absurd hns (by decide)
  · have h1 := collapseRunsAux_length_le false
      ((pyStripDotSpace (replaceIllegal name.data)).take 100)
    have h2 : ((pyStripDotSpace (replaceIllegal name.data)).take 100).length ≤ 100 :=
      List.length_take_le 100 _
    exact le_trans h1 h2

/-! ## File-system model and `_migrate_file` (modules/migrator.py) -/

/-- A file on disk: path, byte size, and the content seen by the
full-content hasher (`none`: reading it raises, so `full_hash` gives
`None`). -/
structure FsEntry where
  path : String
  size : Nat
  content : Option String
deriving DecidableEq, Repr

/-- The file system as the list of present files, most recent write
first. -/
abbrev FS := List FsEntry

def fsExists (fs : FS) (p : String) : Bool := fs.any fun e => e.path == p

def fsFind (fs : FS) (p : String) : Option FsEntry :=
  fs.find? fun e => e.path == p

def fsSize (fs : FS) (p : String) : Option Nat := (fsFind fs p).map (·.size)

/-- utils/hashing.py `calculate_full_file_hash` with abstract digest `H`. -/
def calculate_full_file_hash (H : String → String) (fs : FS) (p : String) :
    Option String :=
  match fsFind fs p with
  | none => none
  | some e => e.content.map H

/-- utils/hashing.py `verify_file_copy`: true iff both full-content hashes
are available and equal. -/
def verify_file_copy (H : String → String) (fs : FS) (s t : String) : Bool :=
  match calculate_full_file_hash H fs s, calculate_full_file_hash H fs t with
  | some a, some b => a == b
  | _, _ => false

def pathDirname (s : String) : String :=
  match rfindChar '/' s.data with
  | none => ""
  | some i => String.mk (s.data.take i)

/-- One suffixed collision candidate `parent/stem_k.ext`. -/
def suffixedName (dir stem ext : String) (k : Nat) : String :=
  dir ++ "/" ++ stem ++ "_" ++ Nat.repr k ++ ext

/-- The `while target_path.exists()` suffix loop of `_migrate_file`, with
explicit fuel (the real loop terminates because the file system is finite;
`fs.length + 1` candidates suffice since candidate names are pairwise
distinct). -/
def findFreeTarget (fs : FS) (dir stem ext : String) : Nat → Nat → String
  | 0, k => suffixedName dir stem ext k
  | fuel + 1, k =>
    let cand := suffixedName dir stem ext k
    if fsExists fs cand then findFreeTarget fs dir stem ext fuel (k + 1) else cand

/-- The copy destination `_migrate_file` settles on: `none` when the target
already exists with the source's byte size (early success, no copy);
otherwise the original target, or the first free suffixed name when the
target exists with a different size. -/
def copyTargetOf (fs : FS) (source target : String) : Option String :=
  if fsExists fs target then
    if fsSize fs target = fsSize fs source then none
    else some (findFreeTarget fs (pathDirname target)
      (pyStem (pathBasename target)) (pySuffix (pathBasename target))
      (fs.length + 1) 1)
  else some target

/-- Effect of `shutil.copy2 source t`: a file appears at `t` with the
source's byte size; the content that actually lands is supplied by the copy
oracle (a faulty copy may corrupt it — that is what verification guards
against). -/
def fsWrite (fs : FS) (t : String) (sz : Nat) (content : Option String) : FS :=
  ⟨t, sz, content⟩ :: fs

/-- `target_path.unlink()`. -/
def fsRemove (fs : FS) (t : String) : FS := fs.filter fun e => e.path != t

structure MigrateFileResult where
  success : Bool
  fs : FS
  wrotePath : Option String
deriving DecidableEq, Repr

/-- modules/migrator.py `_migrate_file`: give up if the source is missing;
succeed without copying when the target exists with identical size;
otherwise copy to the (possibly suffixed) destination, and when
`migration.verify` is set, verify the full-content hashes and on mismatch
delete the copy and fail. -/
def migrate_file (H : String → String) (verifyCfg : Bool)
    (copyContent : String → String → Option String)
    (fs : FS) (source target : String) : MigrateFileResult :=
  if fsExists fs source then
    match copyTargetOf fs source target with
    | none => ⟨true, fs, none⟩
    | some t =>
      let fs1 := fsWrite fs t ((fsSize fs source).getD 0) (copyContent source t)
      if verifyCfg then
        if verify_file_copy H fs1 source t then ⟨true, fs1, some t⟩
        else ⟨false, fsRemove fs1 t, none⟩
      else ⟨true, fs1, some t⟩
  else ⟨false, fs, none⟩

theorem fsExists_iff_find_isSome (fs : FS) (p : String) :
    fsExists fs p = true ↔ (fsFind fs p).isSome := by
  simp [fsExists, fsFind, List.any_eq_true, List.find?_isSome]

theorem fsExists_cons (e : FsEntry) (fs : FS) (p : String) :
    fsExists (e :: fs) p = (e.path == p || fsExists fs p) := by
  simp [fsExists]

theorem fsFind_cons (e : FsEntry) (fs : FS) (p : String) :
    fsFind (e :: fs) p = if e.path == p then some e else fsFind fs p := by
  by_cases h : e.path == p
  · simp [fsFind, List.find?_cons_of_pos, h]
  · simp only [fsFind]
    rw [List.find?_cons_of_neg _ (by simpa using h), if_neg (by simpa using h)]

/-- C5: collision handling of `_migrate_file` in real mode.  First part: a
target existing with the source's byte size is treated as already migrated
(success, no copy, file system unchanged).  Second part: two sources of
different sizes migrated to the same free target path land on two distinct
files, `name.ext` for the first and the suffixed `name_1.ext` for the
second (verification disabled here; it is the subject of C4). -/
theorem c5_collision_naming (H : String → String) (verifyCfg : Bool)
    (copyContent : String → String → Option String)
    (fs' fs0 : FS) (s t sA sB target : String) (a b : FsEntry) :
    (fsExists fs' s = true → fsExists fs' t = true →
      fsSize fs' t = fsSize fs' s →
      migrate_file H verifyCfg copyContent fs' s t = ⟨true, fs', none⟩)
    ∧ (fsFind fs0 sA = some a → fsFind fs0 sB = some b →
       fsExists fs0 target = false →
       fsExists fs0 (suffixedName (pathDirname target) (pyStem (pathBasename target))
         (pySuffix (pathBasename target)) 1) = false →
       target ≠ suffixedName (pathDirname target) (pyStem (pathBasename target))
         (pySuffix (pathBasename target)) 1 →
       a.size ≠ b.size →
       (migrate_file H false copyContent fs0 sA target).success = true
       ∧ (migrate_file H false copyContent fs0 sA target).wrotePath = some target
       ∧ (migrate_file H false copyContent
            (migrate_file H false copyContent fs0 sA target).fs sB target).success = true
       ∧ (migrate_file H false copyContent
            (migrate_file H false copyContent fs0 sA target).fs sB target).wrotePath
           = some (suffixedName (pathDirname target) (pyStem (pathBasename target))
               (pySuffix (pathBasename target)) 1)
       ∧ fsExists (migrate_file H false copyContent
            (migrate_file H false copyContent fs0 sA target).fs sB target).fs target = true
       ∧ fsExists (migrate_file H false copyContent
            (migrate_file H false copyContent fs0 sA target).fs sB target).fs
           (suffixedName (pathDirname target) (pyStem (pathBasename target))
             (pySuffix (pathBasename target)) 1) = true) := by
  constructor
  · intro h1 h2 h3
    simp [migrate_file, copyTargetOf, h1, h2, h3]
  · intro hA hB hT hC hTC hsz
    have hsA : fsExists fs0 sA = true := by
      rw [fsExists_iff_find_isSome, hA]
      rfl
    have hsB0 : fsExists fs0 sB = true := by
      rw [fsExists_iff_find_isSome, hB]
      rfl
    have hszA : fsSize fs0 sA = some a.size := by simp [fsSize, hA]
    have hr1 : migrate_file H false copyContent fs0 sA target =
        ⟨true, fsWrite fs0 target a.size (copyContent sA target), some target⟩ := by
      simp [migrate_file, copyTargetOf, hsA, hT, hszA]
    rw [hr1]
    have hBneT : (target == sB) = false := by
      apply beq_eq_false_iff_ne.mpr
      intro he
      subst he
      have hx : fsExists fs0 target = true := by
        rw [fsExists_iff_find_isSome, hB]
        rfl
      rw [hx] at hT
      simp at hT
    have hwrite : fsWrite fs0 target a.size (copyContent sA target) =
        (⟨target, a.size, copyContent sA target⟩ : FsEntry) :: fs0 := rfl
    have hsB1 : fsExists (fsWrite fs0 target a.size (copyContent sA target)) sB = true := by
      rw [hwrite, fsExists_cons, hsB0]
      simp
    have hT1 : fsExists (fsWrite fs0 target a.size (copyContent sA target)) target = true := by
      rw [hwrite, fsExists_cons]
      simp
    have hszT1 : fsSize (fsWrite fs0 target a.size (copyContent sA target)) target
        = some a.size := by
      rw [hwrite]
      simp [fsSize, fsFind_cons]
    have hszB1 : fsSize (fsWrite fs0 target a.size (copyContent sA target)) sB
        = some b.size := by
      rw [hwrite]
      simp [fsSize, fsFind_cons, hBneT, hB]
    have hcond : (fsSize (fsWrite fs0 target a.size (copyContent sA target)) target =
        fsSize (fsWrite fs0 target a.size (copyContent sA target)) sB) = False := by
      rw [hszT1, hszB1]
      simp [hsz]
    have hcand1 : fsExists (fsWrite fs0 target a.size (copyContent sA target))
        (suffixedName (pathDirname target) (pyStem (pathBasename target))
          (pySuffix (pathBasename target)) 1) = false := by
      rw [hwrite, fsExists_cons, hC]
      simp only [Bool.or_false]
      exact beq_eq_false_iff_ne.mpr hTC
    have hfree : findFreeTarget (fsWrite fs0 target a.size (copyContent sA target))
        (pathDirname target) (pyStem (pathBasename target)) (pySuffix (pathBasename target))
        ((fsWrite fs0 target a.size (copyContent sA target)).length + 1) 1
        = suffixedName (pathDirname target) (pyStem (pathBasename target))
            (pySuffix (pathBasename target)) 1 := by
      rw [hwrite]
      show findFreeTarget _ _ _ _ (fs0.length + 1 + 1) 1 = _
      rw [findFreeTarget]
      simp only [← hwrite, hcand1]
      simp
    have hct : copyTargetOf (fsWrite fs0 target a.size (copyContent sA target)) sB target
        = some (suffixedName (pathDirname target) (pyStem (pathBasename target))
            (pySuffix (pathBasename target)) 1) := by
      unfold copyTargetOf
      rw [hT1, if_pos rfl, if_neg (by rw [hszT1, hszB1]; simp [hsz]), hfree]
    have hszB1' : (fsSize (fsWrite fs0 target a.size (copyContent sA target)) sB).getD 0
        = b.size := by rw [hszB1]; rfl
    have hr2 : migrate_file H false copyContent
        (fsWrite fs0 target a.size (copyContent sA target)) sB target =
        ⟨true, fsWrite (fsWrite fs0 target a.size (copyContent sA target))
          (suffixedName (pathDirname target) (pyStem (pathBasename target))
            (pySuffix (pathBasename target)) 1) b.size
          (copyContent sB (suffixedName (pathDirname target) (pyStem (pathBasename target))
            (pySuffix (pathBasename target)) 1)),
         some (suffixedName (pathDirname target) (pyStem (pathBasename target))
            (pySuffix (pathBasename target)) 1)⟩ := by
      unfold migrate_file
      rw [hsB1, if_pos rfl, hct, hszB1']
      rfl
    rw [hr2]
    refine ⟨rfl, rfl, rfl, rfl, ?_, ?_⟩
    · show fsExists (_ :: fsWrite fs0 target a.size (copyContent sA target)) target = true
      rw [fsExists_cons, hT1]
      simp
    · show fsExists (_ :: fsWrite fs0 target a.size (copyContent sA target)) _ = true
      rw [fsExists_cons]
      simp

/-- C5 witness: two concrete 5- and 7-byte sources whose computed target
collides; the first lands at `T/U/a.mp3`, the second at `T/U/a_1.mp3`. -/
theorem c5_collision_naming_witness :
    (migrate_file id false (fun _ _ => some "c")
      [⟨"/m/x/a.mp3", 5, some "aa"⟩, ⟨"/m/y/a.mp3", 7, some "bb"⟩]
      "/m/x/a.mp3" "T/U/a.mp3").wrotePath = some "T/U/a.mp3"
    ∧ (migrate_file id false (fun _ _ => some "c")
        (migrate_file id false (fun _ _ => some "c")
          [⟨"/m/x/a.mp3", 5, some "aa"⟩, ⟨"/m/y/a.mp3", 7, some "bb"⟩]
          "/m/x/a.mp3" "T/U/a.mp3").fs
        "/m/y/a.mp3" "T/U/a.mp3").wrotePath = some "T/U/a_1.mp3" := by
  have h := (c5_collision_naming id false (fun _ _ => some "c") []
    [⟨"/m/x/a.mp3", 5, some "aa"⟩, ⟨"/m/y/a.mp3", 7, some "bb"⟩]
    "" "" "/m/x/a.mp3" "/m/y/a.mp3" "T/U/a.mp3"
    ⟨"/m/x/a.mp3", 5, some "aa"⟩ ⟨"/m/y/a.mp3", 7, some "bb"⟩).2
    (by decide) (by decide) (by decide) (by decide) (by decide) (by decide)
  refine ⟨h.2.1, ?_⟩
  rw [h.2.2.2.1]
  decide

/-! ## Migration loop (modules/migrator.py `migrate_library`) -/

/-- A `migrations` row (database/models.py `Migration`). -/
structure MigrationRec where
  file_id : Nat
  source_path : String
  target_path : String
  status : String
deriving DecidableEq, Repr

/-- A `duplicates` row (database/models.py `Duplicate`). -/
structure DuplicateRec where
  group_id : String
  file_id : Nat
  is_primary : Bool
  quality_score : Int
deriving DecidableEq, Repr

/-- The catalog database. -/
structure Catalog where
  files : List FileRec
  metadata : List MetadataRec
  migrations : List MigrationRec
  duplicates : List DuplicateRec
deriving Repr

/-- `session.query(Migration).filter_by(file_id=..., status='completed').first()`
is non-empty. -/
def hasCompletedMigration (migs : List MigrationRec) (fid : Nat) : Bool :=
  migs.any fun m => m.file_id == fid && m.status == "completed"

/-- The candidate query of `migrate_library`: status in
`{indexed, analyzed}`, and with `skip_duplicates` either no duplicate row at
all or a primary duplicate row. -/
def isCandidate (dups : List DuplicateRec) (skip_duplicates : Bool)
    (f : FileRec) : Bool :=
  (f.status == "indexed" || f.status == "analyzed") &&
  (!skip_duplicates ||
    (!(dups.any fun d => d.file_id == f.id) ||
      (dups.any fun d => d.file_id == f.id && d.is_primary)))

/-- `file.status = 'migrated'` written back through the session. -/
def setMigrated (files : List FileRec) (fid : Nat) : List FileRec :=
  files.map fun g => if g.id == fid then { g with status := "migrated" } else g

/-- Running state of one `migrate_library` invocation: the mutated catalog
pieces, the file system, the counters the code keeps, the per-file progress
values passed to the callback, and a ghost log of (file id, computed target,
actually written path). -/
structure MigLoopState where
  files : List FileRec
  migrations : List MigrationRec
  fs : FS
  migrated : Nat
  skipped : Nat
  failed : Nat
  errors : List String
  idx : Nat
  progressEvents : List Nat
  log : List (Nat × String × Option String)
deriving Repr

/-- The body of the `for i, file in enumerate(files)` loop of
`migrate_library` (real mode, no stop request): skip when a completed record
exists (note: `continue` also skips the progress callback), otherwise
migrate, record a completed `MigrationRecord` whose `target_path` is the
COMPUTED target (not the possibly suffixed path actually written), advance
the entry's status on success, or count a failure. -/
def migrateStep (H : String → String) (verifyCfg : Bool)
    (copyContent : String → String → Option String)
    (target_base : String) (metadata : List MetadataRec)
    (st : MigLoopState) (f : FileRec) : MigLoopState :=
  if hasCompletedMigration st.migrations f.id then
    { st with skipped := st.skipped + 1, idx := st.idx + 1 }
  else
    let target := get_target_path target_base
      (metadata.find? fun m => m.file_id == f.id) f
    let r := migrate_file H verifyCfg copyContent st.fs f.source_path target
    if r.success then
      { st with
        fs := r.fs
        migrations := st.migrations ++ [⟨f.id, f.source_path, target, "completed"⟩]
        files := setMigrated st.files f.id
        migrated := st.migrated + 1
        idx := st.idx + 1
        progressEvents := st.progressEvents ++ [st.idx + 1]
        log := st.log ++ [(f.id, target, r.wrotePath)] }
    else
      { st with
        fs := r.fs
        failed := st.failed + 1
        errors := st.errors ++ [f.source_path]
        idx := st.idx + 1
        progressEvents := st.progressEvents ++ [st.idx + 1]
        log := st.log ++ [(f.id, target, r.wrotePath)] }

/-- modules/migrator.py `migrate_library` in real mode with no stop request:
select the candidates, then run the per-file loop. -/
def migrate_library (H : String → String) (verifyCfg : Bool)
    (copyContent : String → String → Option String)
    (target_base : String) (skip_duplicates : Bool)
    (cat : Catalog) (fs : FS) : MigLoopState :=
  (cat.files.filter (isCandidate cat.duplicates skip_duplicates)).foldl
    (migrateStep H verifyCfg copyContent target_base cat.metadata)
    ⟨cat.files, cat.migrations, fs, 0, 0, 0, [], 0, [], []⟩

theorem verify_file_copy_eq_false_of (H : String → String) (fs : FS) (s t : String)
    (h : calculate_full_file_hash H fs s = none ∨ calculate_full_file_hash H fs t = none ∨
      calculate_full_file_hash H fs s ≠ calculate_full_file_hash H fs t) :
    verify_file_copy H fs s t = false := by
  unfold verify_file_copy
  cases hs : calculate_full_file_hash H fs s with
  | none => rfl
  | some a =>
    cases ht : calculate_full_file_hash H fs t with
    | none => rfl
    | some b =>
      rcases h with h1 | h2 | h3
      · rw [hs] at h1; cases h1
      · rw [ht] at h2; cases h2
      · rw [hs, ht] at h3
        simp only [ne_eq, Option.some.injEq] at h3
        simpa using h3

theorem fsRemove_write_free (fs : FS) (t : String) (sz : Nat) (cnt : Option String)
    (h : fsExists fs t = false) :
    fsRemove (fsWrite fs t sz cnt) t = fs := by
  unfold fsRemove fsWrite
  rw [List.filter_cons]
  simp only [bne_self_eq_false, Bool.false_eq_true, if_false]
  apply List.filter_eq_self.mpr
  intro e he
  have hne : (e.path == t) = false := by
    by_contra hcon
    simp only [Bool.not_eq_false] at hcon
    have : fsExists fs t = true := by
      unfold fsExists
      exact List.any_eq_true.mpr ⟨e, he, hcon⟩
    rw [this] at h
    cases h
  simpa [bne] using congrArg (fun b => !b) hne

/-- C4: in real mode with verification enabled, when the post-copy
full-content hashes of source and copy destination differ or either is
unavailable, the per-file step deletes the copy, counts the file as failed
with its path appended to the error list, inserts no MigrationRecord, and
leaves every CatalogEntry status unchanged; the file system is exactly as
before the copy (in particular the copy destination does not exist). -/
theorem c4_verify_failure (H : String → String)
    (copyContent : String → String → Option String)
    (target_base : String) (metadata : List MetadataRec)
    (st : MigLoopState) (f : FileRec) (t : String)
    (hnc : hasCompletedMigration st.migrations f.id = false)
    (hsrc : fsExists st.fs f.source_path = true)
    (hct : copyTargetOf st.fs f.source_path
      (get_target_path target_base (metadata.find? fun m => m.file_id == f.id) f)
      = some t)
    (hfree : fsExists st.fs t = false)
    (hmis : calculate_full_file_hash H
        (fsWrite st.fs t ((fsSize st.fs f.source_path).getD 0) (copyContent f.source_path t))
        f.source_path = none ∨
      calculate_full_file_hash H
        (fsWrite st.fs t ((fsSize st.fs f.source_path).getD 0) (copyContent f.source_path t))
        t = none ∨
      calculate_full_file_hash H
        (fsWrite st.fs t ((fsSize st.fs f.source_path).getD 0) (copyContent f.source_path t))
        f.source_path ≠
      calculate_full_file_hash H
        (fsWrite st.fs t ((fsSize st.fs f.source_path).getD 0) (copyContent f.source_path t))
        t) :
    (migrateStep H true copyContent target_base metadata st f).failed = st.failed + 1
    ∧ (migrateStep H true copyContent target_base metadata st f).errors
        = st.errors ++ [f.source_path]
    ∧ (migrateStep H true copyContent target_base metadata st f).migrations
        = st.migrations
    ∧ (migrateStep H true copyContent target_base metadata st f).files = st.files
    ∧ (migrateStep H true copyContent target_base metadata st f).fs = st.fs
    ∧ fsExists (migrateStep H true copyContent target_base metadata st f).fs t = false := by
  have hver : verify_file_copy H
      (fsWrite st.fs t ((fsSize st.fs f.source_path).getD 0) (copyContent f.source_path t))
      f.source_path t = false :=
    verify_file_copy_eq_false_of _ _ _ _ hmis
  have hmf : migrate_file H true copyContent st.fs f.source_path
      (get_target_path target_base (metadata.find? fun m => m.file_id == f.id) f)
      = ⟨false, st.fs, none⟩ := by
    unfold migrate_file
    rw [hsrc, if_pos rfl, hct]
    simp only [hver, Bool.false_eq_true, if_false, if_true]
    rw [fsRemove_write_free _ _ _ _ hfree]
  have hstep : migrateStep H true copyContent target_base metadata st f =
      { st with
        fs := st.fs
        failed := st.failed + 1
        errors := st.errors ++ [f.source_path]
        idx := st.idx + 1
        progressEvents := st.progressEvents ++ [st.idx + 1]
        log := st.log ++ [(f.id,
          get_target_path target_base (metadata.find? fun m => m.file_id == f.id) f,
          none)] } := by
    unfold migrateStep
    rw [hnc]
    simp only [Bool.false_eq_true, if_false]
    rw [hmf]
    simp
  rw [hstep]
  exact ⟨rfl, rfl, rfl, rfl, rfl, by simpa using hfree⟩

/-- C4 witness: a corrupting copy oracle (source content "x", landed content
"y") makes the verified migration of a concrete file fail: counted failed,
path in errors, no record, status untouched, copy removed. -/
theorem c4_verify_failure_witness :
    (migrateStep id true (fun _ _ => some "y") "T" []
      ⟨[⟨1, "/src/a.mp3", 5, "indexed", none⟩], [], [⟨"/src/a.mp3", 5, some "x"⟩],
        0, 0, 0, [], 0, [], []⟩
      ⟨1, "/src/a.mp3", 5, "indexed", none⟩).failed = 1
    ∧ (migrateStep id true (fun _ _ => some "y") "T" []
      ⟨[⟨1, "/src/a.mp3", 5, "indexed", none⟩], [], [⟨"/src/a.mp3", 5, some "x"⟩],
        0, 0, 0, [], 0, [], []⟩
      ⟨1, "/src/a.mp3", 5, "indexed", none⟩).migrations = []
    ∧ fsExists (migrateStep id true (fun _ _ => some "y") "T" []
      ⟨[⟨1, "/src/a.mp3", 5, "indexed", none⟩], [], [⟨"/src/a.mp3", 5, some "x"⟩],
        0, 0, 0, [], 0, [], []⟩
      ⟨1, "/src/a.mp3", 5, "indexed", none⟩).fs "T/Unknown/a.mp3" = false := by
  have h := c4_verify_failure id (fun _ _ => some "y") "T" []
    ⟨[⟨1, "/src/a.mp3", 5, "indexed", none⟩], [], [⟨"/src/a.mp3", 5, some "x"⟩],
      0, 0, 0, [], 0, [], []⟩
    ⟨1, "/src/a.mp3", 5, "indexed", none⟩ "T/Unknown/a.mp3"
    (by decide) (by decide) (by decide) (by decide)
    (Or.inr (Or.inr (by decide)))
  exact ⟨by simpa using h.1, by simpa using h.2.2.1, h.2.2.2.2.2⟩

/-- C10: when `_migrate_file` resolves a collision by writing to a suffixed
path, the completed MigrationRecord inserted by `migrate_library` still
stores the ORIGINALLY computed target path: the local rename inside
`_migrate_file` never reaches the record.  The ghost log pairs the recorded
computed target with the path actually written. -/
theorem c10_recorded_target (H : String → String)
    (copyContent : String → String → Option String)
    (target_base : String) (metadata : List MetadataRec)
    (st : MigLoopState) (f : FileRec) (t : String)
    (hnc : hasCompletedMigration st.migrations f.id = false)
    (hsrc : fsExists st.fs f.source_path = true)
    (hct : copyTargetOf st.fs f.source_path
      (get_target_path target_base (metadata.find? fun m => m.file_id == f.id) f)
      = some t)
    (hne : t ≠ get_target_path target_base (metadata.find? fun m => m.file_id == f.id) f) :
    (migrateStep H false copyContent target_base metadata st f).migrations
      = st.migrations ++ [⟨f.id, f.source_path,
          get_target_path target_base (metadata.find? fun m => m.file_id == f.id) f,
          "completed"⟩]
    ∧ (migrateStep H false copyContent target_base metadata st f).log
      = st.log ++ [(f.id,
          get_target_path target_base (metadata.find? fun m => m.file_id == f.id) f,
          some t)]
    ∧ fsExists (migrateStep H false copyContent target_base metadata st f).fs t = true
    ∧ t ≠ get_target_path target_base (metadata.find? fun m => m.file_id == f.id) f := by
  have hmf : migrate_file H false copyContent st.fs f.source_path
      (get_target_path target_base (metadata.find? fun m => m.file_id == f.id) f)
      = ⟨true, fsWrite st.fs t ((fsSize st.fs f.source_path).getD 0)
          (copyContent f.source_path t), some t⟩ := by
    unfold migrate_file
    rw [hsrc, if_pos rfl, hct]
    rfl
  have hstep : migrateStep H false copyContent target_base metadata st f =
      { st with
        fs := fsWrite st.fs t ((fsSize st.fs f.source_path).getD 0)
          (copyContent f.source_path t)
        migrations := st.migrations ++ [⟨f.id, f.source_path,
          get_target_path target_base (metadata.find? fun m => m.file_id == f.id) f,
          "completed"⟩]
        files := setMigrated st.files f.id
        migrated := st.migrated + 1
        idx := st.idx + 1
        progressEvents := st.progressEvents ++ [st.idx + 1]
        log := st.log ++ [(f.id,
          get_target_path target_base (metadata.find? fun m => m.file_id == f.id) f,
          some t)] } := by
    unfold migrateStep
    rw [hnc]
    simp only [Bool.false_eq_true, if_false]
    rw [hmf]
    simp
  rw [hstep]
  refine ⟨rfl, rfl, ?_, hne⟩
  show fsExists (_ :: st.fs) t = true
  rw [fsExists_cons]
  simp

/-- C10 witness: a concrete collision (target exists with a different size)
— the record stores `T/Unknown/x.mp3` while the file lands at
`T/Unknown/x_1.mp3`. -/
theorem c10_recorded_target_witness :
    (migrateStep id false (fun _ _ => some "x") "T" []
      ⟨[⟨1, "/a/x.mp3", 5, "indexed", none⟩], [],
        [⟨"/a/x.mp3", 5, some "x"⟩, ⟨"T/Unknown/x.mp3", 9, some "z"⟩],
        0, 0, 0, [], 0, [], []⟩
      ⟨1, "/a/x.mp3", 5, "indexed", none⟩).migrations
      = [⟨1, "/a/x.mp3", "T/Unknown/x.mp3", "completed"⟩]
    ∧ (migrateStep id false (fun _ _ => some "x") "T" []
      ⟨[⟨1, "/a/x.mp3", 5, "indexed", none⟩], [],
        [⟨"/a/x.mp3", 5, some "x"⟩, ⟨"T/Unknown/x.mp3", 9, some "z"⟩],
        0, 0, 0, [], 0, [], []⟩
      ⟨1, "/a/x.mp3", 5, "indexed", none⟩).log
      = [(1, "T/Unknown/x.mp3", some "T/Unknown/x_1.mp3")] := by
  have h := c10_recorded_target id (fun _ _ => some "x") "T" []
    ⟨[⟨1, "/a/x.mp3", 5, "indexed", none⟩], [],
      [⟨"/a/x.mp3", 5, some "x"⟩, ⟨"T/Unknown/x.mp3", 9, some "z"⟩],
      0, 0, 0, [], 0, [], []⟩
    ⟨1, "/a/x.mp3", 5, "indexed", none⟩ "T/Unknown/x_1.mp3"
    (by decide) (by decide) (by decide) (by decide)
  exact ⟨by simpa using h.1, by simpa using h.2.1⟩

/-! ## Invariants of the migration loop (claim C1) -/

theorem foldl_preserves {α β : Type} (step : β → α → β) (P : β → Prop)
    (h : ∀ s a, P s → P (step s a)) :
    ∀ (l : List α) (s : β), P s → P (l.foldl step s) := by
  intro l
  induction l with
  | nil => intro s hs; exact hs
  | cons a t ih => intro s hs; exact ih _ (h s a hs)

/-- `migrate_library` only appends MigrationRecords. -/
theorem migrateStep_migrations_extend (H : String → String) (verifyCfg : Bool)
    (copyContent : String → String → Option String)
    (target_base : String) (metadata : List MetadataRec)
    (st : MigLoopState) (f : FileRec) :
    st.migrations <+:
      (migrateStep H verifyCfg copyContent target_base metadata st f).migrations := by
  unfold migrateStep
  by_cases hc : hasCompletedMigration st.migrations f.id
  · simp [hc]
  · simp only [hc, Bool.false_eq_true, if_false]
    by_cases hs : (migrate_file H verifyCfg copyContent st.fs f.source_path
        (get_target_path target_base (metadata.find? fun m => m.file_id == f.id) f)).success
    · simp [hs]
    · simp [hs]

theorem foldl_migrations_extend (H : String → String) (verifyCfg : Bool)
    (copyContent : String → String → Option String)
    (target_base : String) (metadata : List MetadataRec) :
    ∀ (l : List FileRec) (st : MigLoopState),
      st.migrations <+:
        (l.foldl (migrateStep H verifyCfg copyContent target_base metadata) st).migrations := by
  intro l
  induction l with
  | nil => intro st; exact List.prefix_refl _
  | cons a t ih =>
    intro st
    exact (migrateStep_migrations_extend H verifyCfg copyContent target_base metadata st a).trans
      (ih _)

theorem hasCompleted_mono (m m' : List MigrationRec) (fid : Nat)
    (h : hasCompletedMigration m fid = true) (hpre : m <+: m') :
    hasCompletedMigration m' fid = true := by
  rcases hpre with ⟨rest, rfl⟩
  unfold hasCompletedMigration at h ⊢
  rw [List.any_append, h]
  rfl

theorem migrateStep_failed_le (H : String → String) (verifyCfg : Bool)
    (copyContent : String → String → Option String)
    (target_base : String) (metadata : List MetadataRec)
    (st : MigLoopState) (f : FileRec) :
    st.failed ≤ (migrateStep H verifyCfg copyContent target_base metadata st f).failed := by
  unfold migrateStep
  by_cases hc : hasCompletedMigration st.migrations f.id
  · simp [hc]
  · simp only [hc, Bool.false_eq_true, if_false]
    by_cases hs : (migrate_file H verifyCfg copyContent st.fs f.source_path
        (get_target_path target_base (metadata.find? fun m => m.file_id == f.id) f)).success
    · simp [hs]
    · simp [hs]

theorem foldl_failed_le (H : String → String) (verifyCfg : Bool)
    (copyContent : String → String → Option String)
    (target_base : String) (metadata : List MetadataRec) :
    ∀ (l : List FileRec) (st : MigLoopState),
      st.failed ≤
        (l.foldl (migrateStep H verifyCfg copyContent target_base metadata) st).failed := by
  intro l
  induction l with
  | nil => intro st; exact Nat.le_refl _
  | cons a t ih =>
    intro st
    exact (migrateStep_failed_le H verifyCfg copyContent target_base metadata st a).trans (ih _)

theorem migrateStep_skip (H : String → String) (verifyCfg : Bool)
    (copyContent : String → String → Option String)
    (target_base : String) (metadata : List MetadataRec)
    (st : MigLoopState) (f : FileRec)
    (hc : hasCompletedMigration st.migrations f.id = true) :
    migrateStep H verifyCfg copyContent target_base metadata st f =
      { st with skipped := st.skipped + 1, idx := st.idx + 1 } := by
  unfold migrateStep
  rw [hc]
  rfl

/-- The invariant of claim C1: at most one completed MigrationRecord per
CatalogEntry. -/
def AtMostOneCompleted (migs : List MigrationRec) : Prop :=
  ∀ fid : Nat,
    migs.countP (fun m => m.file_id == fid && m.status == "completed") ≤ 1

theorem hasCompleted_eq_false_countP (migs : List MigrationRec) (fid : Nat)
    (h : hasCompletedMigration migs fid = false) :
    migs.countP (fun m => m.file_id == fid && m.status == "completed") = 0 := by
  rw [List.countP_eq_zero]
  intro m hm hpred
  have : hasCompletedMigration migs fid = true :=
    List.any_eq_true.mpr ⟨m, hm, hpred⟩
  rw [this] at h
  cases h

theorem migrateStep_AMOC (H : String → String) (verifyCfg : Bool)
    (copyContent : String → String → Option String)
    (target_base : String) (metadata : List MetadataRec)
    (st : MigLoopState) (f : FileRec)
    (h : AtMostOneCompleted st.migrations) :
    AtMostOneCompleted
      (migrateStep H verifyCfg copyContent target_base metadata st f).migrations := by
  unfold migrateStep
  by_cases hc : hasCompletedMigration st.migrations f.id
  · simpa [hc] using h
  · simp only [hc, Bool.false_eq_true, if_false]
    by_cases hs : (migrate_file H verifyCfg copyContent st.fs f.source_path
        (get_target_path target_base (metadata.find? fun m => m.file_id == f.id) f)).success
    · simp only [hs, if_true]
      intro fid
      show (st.migrations ++ [_]).countP _ ≤ 1
      rw [List.countP_append]
      by_cases hfid : f.id = fid
      · subst hfid
        rw [hasCompleted_eq_false_countP st.migrations f.id (by simpa using hc)]
        simp
      · have hz : ([(⟨f.id, f.source_path,
            get_target_path target_base (metadata.find? fun m => m.file_id == f.id) f,
            "completed"⟩ : MigrationRec)].countP
            (fun m => m.file_id == fid && m.status == "completed")) = 0 := by
          rw [List.countP_eq_zero]
          intro m hm
          simp only [List.mem_singleton] at hm
          subst hm
          simp [hfid]
        rw [hz]
        simpa using h fid
    · simpa [hs] using h

theorem migrateStep_success_eq (H : String → String) (verifyCfg : Bool)
    (copyContent : String → String → Option String)
    (target_base : String) (metadata : List MetadataRec)
    (st : MigLoopState) (f : FileRec)
    (hc : hasCompletedMigration st.migrations f.id = false)
    (hs : (migrate_file H verifyCfg copyContent st.fs f.source_path
      (get_target_path target_base (metadata.find? fun m => m.file_id == f.id) f)).success
      = true) :
    migrateStep H verifyCfg copyContent target_base metadata st f =
      { st with
        fs := (migrate_file H verifyCfg copyContent st.fs f.source_path
          (get_target_path target_base (metadata.find? fun m => m.file_id == f.id) f)).fs
        migrations := st.migrations ++ [⟨f.id, f.source_path,
          get_target_path target_base (metadata.find? fun m => m.file_id == f.id) f,
          "completed"⟩]
        files := setMigrated st.files f.id
        migrated := st.migrated + 1
        idx := st.idx + 1
        progressEvents := st.progressEvents ++ [st.idx + 1]
        log := st.log ++ [(f.id,
          get_target_path target_base (metadata.find? fun m => m.file_id == f.id) f,
          (migrate_file H verifyCfg copyContent st.fs f.source_path
            (get_target_path target_base
              (metadata.find? fun m => m.file_id == f.id) f)).wrotePath)] } := by
  unfold migrateStep
  rw [hc]
  simp [hs]

theorem migrateStep_fail_eq (H : String → String) (verifyCfg : Bool)
    (copyContent : String → String → Option String)
    (target_base : String) (metadata : List MetadataRec)
    (st : MigLoopState) (f : FileRec)
    (hc : hasCompletedMigration st.migrations f.id = false)
    (hs : (migrate_file H verifyCfg copyContent st.fs f.source_path
      (get_target_path target_base (metadata.find? fun m => m.file_id == f.id) f)).success
      = false) :
    migrateStep H verifyCfg copyContent target_base metadata st f =
      { st with
        fs := (migrate_file H verifyCfg copyContent st.fs f.source_path
          (get_target_path target_base (metadata.find? fun m => m.file_id == f.id) f)).fs
        failed := st.failed + 1
        errors := st.errors ++ [f.source_path]
        idx := st.idx + 1
        progressEvents := st.progressEvents ++ [st.idx + 1]
        log := st.log ++ [(f.id,
          get_target_path target_base (metadata.find? fun m => m.file_id == f.id) f,
          (migrate_file H verifyCfg copyContent st.fs f.source_path
            (get_target_path target_base
              (metadata.find? fun m => m.file_id == f.id) f)).wrotePath)] } := by
  unfold migrateStep
  rw [hc]
  simp [hs]

/-- Processing a file in a run whose failure counter never moves leaves a
completed MigrationRecord for it. -/
theorem foldl_candidates_completed (H : String → String) (verifyCfg : Bool)
    (copyContent : String → String → Option String)
    (target_base : String) (metadata : List MetadataRec) :
    ∀ (l : List FileRec) (st : MigLoopState),
      (l.foldl (migrateStep H verifyCfg copyContent target_base metadata) st).failed
        = st.failed →
      ∀ f ∈ l, hasCompletedMigration
        (l.foldl (migrateStep H verifyCfg copyContent target_base metadata) st).migrations
        f.id = true := by
  intro l
  induction l with
  | nil =>
    intro st _ f hf
    cases hf
  | cons a t ih =>
    intro st hfail f hf
    have hfold : (a :: t).foldl (migrateStep H verifyCfg copyContent target_base metadata) st
        = t.foldl (migrateStep H verifyCfg copyContent target_base metadata)
            (migrateStep H verifyCfg copyContent target_base metadata st a) := rfl
    rw [hfold] at hfail ⊢
    have h1 : st.failed ≤
        (migrateStep H verifyCfg copyContent target_base metadata st a).failed :=
      migrateStep_failed_le H verifyCfg copyContent target_base metadata st a
    have h2 : (migrateStep H verifyCfg copyContent target_base metadata st a).failed ≤
        (t.foldl (migrateStep H verifyCfg copyContent target_base metadata)
          (migrateStep H verifyCfg copyContent target_base metadata st a)).failed :=
      foldl_failed_le H verifyCfg copyContent target_base metadata t _
    have hf1 : (migrateStep H verifyCfg copyContent target_base metadata st a).failed
        = st.failed := Nat.le_antisymm (hfail ▸ h2) h1
    rcases List.mem_cons.mp hf with rfl | hft
    · have hstep : hasCompletedMigration
          (migrateStep H verifyCfg copyContent target_base metadata st f).migrations
          f.id = true := by
        by_cases hc : hasCompletedMigration st.migrations f.id = true
        · rw [migrateStep_skip H verifyCfg copyContent target_base metadata st f hc]
          exact hc
        · have hc' : hasCompletedMigration st.migrations f.id = false := by
            simpa using hc
          by_cases hs : (migrate_file H verifyCfg copyContent st.fs f.source_path
              (get_target_path target_base
                (metadata.find? fun m => m.file_id == f.id) f)).success = true
          · rw [migrateStep_success_eq H verifyCfg copyContent target_base metadata
              st f hc' hs]
            unfold hasCompletedMigration
            rw [List.any_append]
            simp
          · rw [migrateStep_fail_eq H verifyCfg copyContent target_base metadata
              st f hc' (by simpa using hs)] at hf1
            simp at hf1
      exact hasCompleted_mono _ _ _ hstep
        (foldl_migrations_extend H verifyCfg copyContent target_base metadata t _)
    · exact ih _ (by rw [hfail, hf1]) f hft

/-- How a catalog `files` row can evolve during one migration run: only its
status can change, and only to "migrated". -/
def FileEvolves (g g' : FileRec) : Prop :=
  g'.id = g.id ∧ g'.source_path = g.source_path ∧ g'.file_size = g.file_size
  ∧ g'.file_hash = g.file_hash ∧ (g'.status = g.status ∨ g'.status = "migrated")

theorem fileEvolves_refl (g : FileRec) : FileEvolves g g :=
  ⟨rfl, rfl, rfl, rfl, Or.inl rfl⟩

theorem fileEvolves_setMigrated (g : FileRec) (fid : Nat) :
    FileEvolves g (if g.id == fid then { g with status := "migrated" } else g) := by
  by_cases h : g.id == fid
  · rw [if_pos h]
    exact ⟨rfl, rfl, rfl, rfl, Or.inr rfl⟩
  · rw [if_neg h]
    exact fileEvolves_refl g

theorem fileEvolves_trans (a b c : FileRec)
    (h1 : FileEvolves a b) (h2 : FileEvolves b c) : FileEvolves a c := by
  obtain ⟨i1, s1, z1, h1', st1⟩ := h1
  obtain ⟨i2, s2, z2, h2', st2⟩ := h2
  refine ⟨i2.trans i1, s2.trans s1, z2.trans z1, h2'.trans h1', ?_⟩
  rcases st2 with h | h
  · rcases st1 with h' | h'
    · exact Or.inl (h.trans h')
    · exact Or.inr (h.trans h')
  · exact Or.inr h

theorem forall₂_evolves_trans :
    ∀ {l1 l2 l3 : List FileRec}, List.Forall₂ FileEvolves l1 l2 →
      List.Forall₂ FileEvolves l2 l3 → List.Forall₂ FileEvolves l1 l3 := by
  intro l1 l2 l3 h1 h2
  induction h1 generalizing l3 with
  | nil =>
    cases h2
    exact List.Forall₂.nil
  | cons hab htail ih =>
    cases h2 with
    | cons hbc htail' =>
      exact List.Forall₂.cons (fileEvolves_trans _ _ _ hab hbc) (ih htail')

theorem setMigrated_evolves (files : List FileRec) (fid : Nat) :
    List.Forall₂ FileEvolves files (setMigrated files fid) := by
  unfold setMigrated
  induction files with
  | nil => exact List.Forall₂.nil
  | cons g t ih =>
    exact List.Forall₂.cons (fileEvolves_setMigrated g fid) ih

theorem migrateStep_files_evolve (H : String → String) (verifyCfg : Bool)
    (copyContent : String → String → Option String)
    (target_base : String) (metadata : List MetadataRec)
    (base : List FileRec) (st : MigLoopState) (f : FileRec)
    (h : List.Forall₂ FileEvolves base st.files) :
    List.Forall₂ FileEvolves base
      (migrateStep H verifyCfg copyContent target_base metadata st f).files := by
  unfold migrateStep
  by_cases hc : hasCompletedMigration st.migrations f.id
  · simpa [hc] using h
  · simp only [hc, Bool.false_eq_true, if_false]
    by_cases hs : (migrate_file H verifyCfg copyContent st.fs f.source_path
        (get_target_path target_base (metadata.find? fun m => m.file_id == f.id) f)).success
    · simp only [hs, if_true]
      exact forall₂_evolves_trans h (setMigrated_evolves st.files f.id)
    · simpa [hs] using h

theorem forall₂_mem_right {α β : Type} {R : α → β → Prop} :
    ∀ {l1 : List α} {l2 : List β}, List.Forall₂ R l1 l2 →
      ∀ b ∈ l2, ∃ a ∈ l1, R a b := by
  intro l1 l2 h
  induction h with
  | nil =>
    intro b hb
    cases hb
  | cons hab htail ih =>
    intro b hb
    rcases List.mem_cons.mp hb with rfl | hb'
    · exact ⟨_, List.mem_cons_self _ _, hab⟩
    · rcases ih b hb' with ⟨a, ha, hr⟩
      exact ⟨a, List.mem_cons_of_mem _ ha, hr⟩

/-- A run whose every candidate already has a completed record is a pure
skip loop: nothing changes except the skip counter. -/
theorem foldl_all_skip (H : String → String) (verifyCfg : Bool)
    (copyContent : String → String → Option String)
    (target_base : String) (metadata : List MetadataRec) :
    ∀ (l : List FileRec) (st : MigLoopState),
      (∀ f ∈ l, hasCompletedMigration st.migrations f.id = true) →
      (l.foldl (migrateStep H verifyCfg copyContent target_base metadata) st).migrations
          = st.migrations
      ∧ (l.foldl (migrateStep H verifyCfg copyContent target_base metadata) st).files
          = st.files
      ∧ (l.foldl (migrateStep H verifyCfg copyContent target_base metadata) st).fs = st.fs
      ∧ (l.foldl (migrateStep H verifyCfg copyContent target_base metadata) st).migrated
          = st.migrated
      ∧ (l.foldl (migrateStep H verifyCfg copyContent target_base metadata) st).failed
          = st.failed
      ∧ (l.foldl (migrateStep H verifyCfg copyContent target_base metadata) st).errors
          = st.errors
      ∧ (l.foldl (migrateStep H verifyCfg copyContent target_base metadata) st).skipped
          = st.skipped + l.length := by
  intro l
  induction l with
  | nil =>
    intro st _
    exact ⟨rfl, rfl, rfl, rfl, rfl, rfl, rfl⟩
  | cons a t ih =>
    intro st hall
    have hskip := migrateStep_skip H verifyCfg copyContent target_base metadata st a
      (hall a (List.mem_cons_self a t))
    have hfold : (a :: t).foldl (migrateStep H verifyCfg copyContent target_base metadata) st
        = t.foldl (migrateStep H verifyCfg copyContent target_base metadata)
            (migrateStep H verifyCfg copyContent target_base metadata st a) := rfl
    rw [hfold, hskip]
    have hall' : ∀ f ∈ t, hasCompletedMigration
        ({ st with skipped := st.skipped + 1, idx := st.idx + 1 } : MigLoopState).migrations
        f.id = true :=
      fun f hf => hall f (List.mem_cons_of_mem a hf)
    rcases ih _ hall' with ⟨e1, e2, e3, e4, e5, e6, e7⟩
    refine ⟨e1, e2, e3, e4, e5, e6, ?_⟩
    rw [e7]
    show st.skipped + 1 + t.length = st.skipped + (t.length + 1)
    omega

/-- Every catalog row with this id has status "migrated". -/
def AllMigrated (fid : Nat) (files : List FileRec) : Prop :=
  ∀ g ∈ files, g.id = fid → g.status = "migrated"

theorem setMigrated_allMigrated (files : List FileRec) (fid : Nat) :
    AllMigrated fid (setMigrated files fid) := by
  intro g hg hid
  unfold setMigrated at hg
  rcases List.mem_map.mp hg with ⟨g0, -, rfl⟩
  by_cases h : g0.id == fid
  · rw [if_pos h] at hid ⊢
  · rw [if_neg h] at hid ⊢
    exact absurd (beq_iff_eq.mpr hid) h

theorem setMigrated_preserves_allMigrated (files : List FileRec) (fid fid' : Nat)
    (h : AllMigrated fid files) : AllMigrated fid (setMigrated files fid') := by
  intro g hg hid
  unfold setMigrated at hg
  rcases List.mem_map.mp hg with ⟨g0, hg0, rfl⟩
  by_cases hb : g0.id == fid'
  · rw [if_pos hb]
  · rw [if_neg hb] at hid ⊢
    exact h g0 hg0 hid

theorem migrateStep_preserves_allMigrated (H : String → String) (verifyCfg : Bool)
    (copyContent : String → String → Option String)
    (target_base : String) (metadata : List MetadataRec)
    (fid : Nat) (st : MigLoopState) (f : FileRec)
    (h : AllMigrated fid st.files) :
    AllMigrated fid
      (migrateStep H verifyCfg copyContent target_base metadata st f).files := by
  unfold migrateStep
  by_cases hc : hasCompletedMigration st.migrations f.id
  · simpa [hc] using h
  · simp only [hc, Bool.false_eq_true, if_false]
    by_cases hs : (migrate_file H verifyCfg copyContent st.fs f.source_path
        (get_target_path target_base (metadata.find? fun m => m.file_id == f.id) f)).success
    · simp only [hs, if_true]
      exact setMigrated_preserves_allMigrated st.files fid f.id h
    · simpa [hs] using h

/-- In a run that never fails and whose candidate ids are distinct, a
candidate with no pre-existing completed record ends with every catalog row
of its id in status "migrated". -/
theorem run_marks_migrated (H : String → String) (verifyCfg : Bool)
    (copyContent : String → String → Option String)
    (target_base : String) (metadata : List MetadataRec) :
    ∀ (l : List FileRec) (st : MigLoopState),
      (l.foldl (migrateStep H verifyCfg copyContent target_base metadata) st).failed
        = st.failed →
      (l.map FileRec.id).Nodup →
      ∀ f ∈ l, hasCompletedMigration st.migrations f.id = false →
        AllMigrated f.id
          (l.foldl (migrateStep H verifyCfg copyContent target_base metadata) st).files := by
  intro l
  induction l with
  | nil =>
    intro st _ _ f hf
    cases hf
  | cons a t ih =>
    intro st hfail hnd f hf hcf
    have hfold : (a :: t).foldl (migrateStep H verifyCfg copyContent target_base metadata) st
        = t.foldl (migrateStep H verifyCfg copyContent target_base metadata)
            (migrateStep H verifyCfg copyContent target_base metadata st a) := rfl
    rw [hfold] at hfail ⊢
    have h1 : st.failed ≤
        (migrateStep H verifyCfg copyContent target_base metadata st a).failed :=
      migrateStep_failed_le H verifyCfg copyContent target_base metadata st a
    have h2 : (migrateStep H verifyCfg copyContent target_base metadata st a).failed ≤
        (t.foldl (migrateStep H verifyCfg copyContent target_base metadata)
          (migrateStep H verifyCfg copyContent target_base metadata st a)).failed :=
      foldl_failed_le H verifyCfg copyContent target_base metadata t _
    have hf1 : (migrateStep H verifyCfg copyContent target_base metadata st a).failed
        = st.failed := Nat.le_antisymm (hfail ▸ h2) h1
    rcases List.mem_cons.mp hf with rfl | hft
    · by_cases hs : (migrate_file H verifyCfg copyContent st.fs f.source_path
          (get_target_path target_base (metadata.find? fun m => m.file_id == f.id) f)).success
          = true
      · have hstep := migrateStep_success_eq H verifyCfg copyContent target_base metadata
          st f hcf hs
        have hAM : AllMigrated f.id
            (migrateStep H verifyCfg copyContent target_base metadata st f).files := by
          rw [hstep]
          exact setMigrated_allMigrated st.files f.id
        exact foldl_preserves _ (fun s => AllMigrated f.id s.files)
          (fun s g hg =>
            migrateStep_preserves_allMigrated H verifyCfg copyContent target_base metadata
              f.id s g hg) t _ hAM
      · rw [migrateStep_fail_eq H verifyCfg copyContent target_base metadata
          st f hcf (by simpa using hs)] at hf1
        simp at hf1
    · have hane : a.id ≠ f.id := by
        intro he
        have : f.id ∈ t.map FileRec.id := List.mem_map_of_mem FileRec.id hft
        rw [← he] at this
        exact (List.nodup_cons.mp hnd).1 this
      have hcf1 : hasCompletedMigration
          (migrateStep H verifyCfg copyContent target_base metadata st a).migrations f.id
          = false := by
        by_cases hca : hasCompletedMigration st.migrations a.id = true
        · rw [migrateStep_skip H verifyCfg copyContent target_base metadata st a hca]
          exact hcf
        · have hca' : hasCompletedMigration st.migrations a.id = false := by simpa using hca
          by_cases hsa : (migrate_file H verifyCfg copyContent st.fs a.source_path
              (get_target_path target_base
                (metadata.find? fun m => m.file_id == a.id) a)).success = true
          · rw [migrateStep_success_eq H verifyCfg copyContent target_base metadata
              st a hca' hsa]
            have hcf' : (st.migrations.any fun m =>
                m.file_id == f.id && m.status == "completed") = false := hcf
            show (st.migrations ++ [_]).any _ = false
            rw [List.any_append, hcf']
            simp [hane]
          · rw [migrateStep_fail_eq H verifyCfg copyContent target_base metadata
              st a hca' (by simpa using hsa)] at hf1
            simp at hf1
      exact ih _ (by rw [hfail, hf1]) (List.nodup_cons.mp hnd).2 f hft hcf1

theorem isCandidate_status (dups : List DuplicateRec) (sd : Bool) (f : FileRec)
    (h : isCandidate dups sd f = true) :
    f.status = "indexed" ∨ f.status = "analyzed" := by
  unfold isCandidate at h
  have h1 := (Bool.and_eq_true _ _).mp h
  rcases Bool.or_eq_true_iff.mp h1.1 with h2 | h2
  · exact Or.inl (beq_iff_eq.mp h2)
  · exact Or.inr (beq_iff_eq.mp h2)

theorem isCandidate_congr (dups : List DuplicateRec) (sd : Bool) (g f : FileRec)
    (hid : f.id = g.id) (hst : f.status = g.status) :
    isCandidate dups sd f = isCandidate dups sd g := by
  unfold isCandidate
  rw [hid, hst]

/-- C1 (amended): starting from a catalog whose migrations satisfy the
at-most-one-completed invariant and whose file ids are distinct, a second
`migrate_library` run after a fully successful one creates no new
MigrationRecord and preserves the invariant; but the second run does NOT
count previously-migrated files as skipped: those files now carry status
"migrated" and are excluded by the candidate query, so its skip counter
covers only entries still in status indexed/analyzed that carry a prior
completed record — with no pre-existing completed records it reports
`skipped = 0`. -/
theorem c1_amended (H : String → String) (verifyCfg : Bool)
    (copyContent : String → String → Option String)
    (target_base : String) (skip_duplicates : Bool) (cat : Catalog) (fs : FS)
    (hAMOC : AtMostOneCompleted cat.migrations)
    (hnd : (cat.files.map FileRec.id).Nodup)
    (hf : (migrate_library H verifyCfg copyContent target_base skip_duplicates
      cat fs).failed = 0) :
    let run1 := migrate_library H verifyCfg copyContent target_base skip_duplicates cat fs
    let run2 := migrate_library H verifyCfg copyContent target_base skip_duplicates
      ⟨run1.files, cat.metadata, run1.migrations, cat.duplicates⟩ run1.fs
    run2.migrations = run1.migrations
    ∧ AtMostOneCompleted run2.migrations
    ∧ run2.migrated = 0
    ∧ run2.failed = 0
    ∧ run2.files = run1.files
    ∧ run2.skipped
        = (run1.files.filter (isCandidate cat.duplicates skip_duplicates)).length
    ∧ (cat.migrations = [] → run2.skipped = 0) := by
  intro run1 run2
  have hfail1 : ((cat.files.filter (isCandidate cat.duplicates skip_duplicates)).foldl
      (migrateStep H verifyCfg copyContent target_base cat.metadata)
      ⟨cat.files, cat.migrations, fs, 0, 0, 0, [], 0, [], []⟩).failed
      = (⟨cat.files, cat.migrations, fs, 0, 0, 0, [], 0, [], []⟩ : MigLoopState).failed := hf
  have hB := foldl_candidates_completed H verifyCfg copyContent target_base cat.metadata
    (cat.files.filter (isCandidate cat.duplicates skip_duplicates))
    ⟨cat.files, cat.migrations, fs, 0, 0, 0, [], 0, [], []⟩ hfail1
  have hrefl : List.Forall₂ FileEvolves cat.files cat.files := by
    induction cat.files with
    | nil => exact List.Forall₂.nil
    | cons g t ih => exact List.Forall₂.cons (fileEvolves_refl g) ih
  have hEvol : List.Forall₂ FileEvolves cat.files run1.files :=
    foldl_preserves _ (fun s => List.Forall₂ FileEvolves cat.files s.files)
      (fun s g hg =>
        migrateStep_files_evolve H verifyCfg copyContent target_base cat.metadata
          cat.files s g hg)
      (cat.files.filter (isCandidate cat.duplicates skip_duplicates))
      ⟨cat.files, cat.migrations, fs, 0, 0, 0, [], 0, [], []⟩ hrefl
  have hA : ∀ f ∈ run1.files, isCandidate cat.duplicates skip_duplicates f = true →
      hasCompletedMigration run1.migrations f.id = true := by
    intro f hmem hcand
    obtain ⟨g, hg, hid, hsp, hsz, hh, hstat⟩ := forall₂_mem_right hEvol f hmem
    have hstat' : f.status = g.status := by
      rcases hstat with h | h
      · exact h
      · exfalso
        have hx := isCandidate_status cat.duplicates skip_duplicates f hcand
        rw [h] at hx
        exact absurd hx (by decide)
    have hcand_g : isCandidate cat.duplicates skip_duplicates g = true := by
      rw [← isCandidate_congr cat.duplicates skip_duplicates g f hid hstat']
      exact hcand
    have hgl1 : g ∈ cat.files.filter (isCandidate cat.duplicates skip_duplicates) :=
      List.mem_filter.mpr ⟨hg, hcand_g⟩
    rw [hid]
    exact hB g hgl1
  have hD := foldl_all_skip H verifyCfg copyContent target_base cat.metadata
    (run1.files.filter (isCandidate cat.duplicates skip_duplicates))
    ⟨run1.files, run1.migrations, run1.fs, 0, 0, 0, [], 0, [], []⟩
    (by
      intro f hfm
      rcases List.mem_filter.mp hfm with ⟨hmem, hcand⟩
      exact hA f hmem hcand)
  obtain ⟨d1, d2, d3, d4, d5, d6, d7⟩ := hD
  have hAMOC1 : AtMostOneCompleted run1.migrations :=
    foldl_preserves _ (fun s => AtMostOneCompleted s.migrations)
      (fun s g hg =>
        migrateStep_AMOC H verifyCfg copyContent target_base cat.metadata s g hg)
      (cat.files.filter (isCandidate cat.duplicates skip_duplicates))
      ⟨cat.files, cat.migrations, fs, 0, 0, 0, [], 0, [], []⟩ hAMOC
  have hmig2 : run2.migrations = run1.migrations := d1
  have hmigr2 : run2.migrated = 0 := d4
  have hfail2 : run2.failed = 0 := d5
  have hfiles2 : run2.files = run1.files := d2
  have hskip2 : run2.skipped = 0 +
      (run1.files.filter (isCandidate cat.duplicates skip_duplicates)).length := d7
  refine ⟨hmig2, by rw [hmig2]; exact hAMOC1, hmigr2, hfail2, hfiles2,
    by rw [hskip2]; exact Nat.zero_add _, ?_⟩
  intro hm0
  have hempty : run1.files.filter (isCandidate cat.duplicates skip_duplicates) = [] := by
    rw [List.filter_eq_nil_iff]
    intro f hmem hcand
    obtain ⟨g, hg, hid, hsp, hsz, hh, hstat⟩ := forall₂_mem_right hEvol f hmem
    have hstat' : f.status = g.status := by
      rcases hstat with h | h
      · exact h
      · exfalso
        have hx := isCandidate_status cat.duplicates skip_duplicates f hcand
        rw [h] at hx
        exact absurd hx (by decide)
    have hcand_g : isCandidate cat.duplicates skip_duplicates g = true := by
      rw [← isCandidate_congr cat.duplicates skip_duplicates g f hid hstat']
      exact hcand
    have hgl1 : g ∈ cat.files.filter (isCandidate cat.duplicates skip_duplicates) :=
      List.mem_filter.mpr ⟨hg, hcand_g⟩
    have hndl1 : ((cat.files.filter
        (isCandidate cat.duplicates skip_duplicates)).map FileRec.id).Nodup :=
      hnd.sublist (List.Sublist.map FileRec.id (List.filter_sublist _))
    have hcg : hasCompletedMigration
        (⟨cat.files, cat.migrations, fs, 0, 0, 0, [], 0, [], []⟩ : MigLoopState).migrations
        g.id = false := by
      show hasCompletedMigration cat.migrations g.id = false
      rw [hm0]
      rfl
    have hE := run_marks_migrated H verifyCfg copyContent target_base cat.metadata
      (cat.files.filter (isCandidate cat.duplicates skip_duplicates))
      ⟨cat.files, cat.migrations, fs, 0, 0, 0, [], 0, [], []⟩ hfail1 hndl1 g hgl1 hcg
    have hmig : f.status = "migrated" := hE f hmem hid
    have hx := isCandidate_status cat.duplicates skip_duplicates f hcand
    rw [hmig] at hx
    exact absurd hx (by decide)
  rw [hskip2, hempty]
  rfl

/-- C1 (counterexample): one file, fully successful first run.  The first
run migrates it (count 1) and advances its status to "migrated"; the second
run's candidate query no longer selects it, so the second run reports
`skipped = 0` — not 1 as the claim ("counts every previously-migrated file
as skipped") requires. -/
theorem c1_counterexample :
    (migrate_library id false (fun _ _ => some "x") "T" true
      ⟨[⟨1, "/s/a.mp3", 5, "indexed", none⟩], [], [], []⟩
      [⟨"/s/a.mp3", 5, some "x"⟩]).migrated = 1
    ∧ (migrate_library id false (fun _ _ => some "x") "T" true
        ⟨(migrate_library id false (fun _ _ => some "x") "T" true
            ⟨[⟨1, "/s/a.mp3", 5, "indexed", none⟩], [], [], []⟩
            [⟨"/s/a.mp3", 5, some "x"⟩]).files,
          [],
          (migrate_library id false (fun _ _ => some "x") "T" true
            ⟨[⟨1, "/s/a.mp3", 5, "indexed", none⟩], [], [], []⟩
            [⟨"/s/a.mp3", 5, some "x"⟩]).migrations,
          []⟩
        (migrate_library id false (fun _ _ => some "x") "T" true
          ⟨[⟨1, "/s/a.mp3", 5, "indexed", none⟩], [], [], []⟩
          [⟨"/s/a.mp3", 5, some "x"⟩]).fs).skipped = 0 := by
  decide

/-- C1 witness: the amended theorem applied to the same concrete catalog:
second run adds no record and reports zero skips. -/
theorem c1_amended_witness :
    (migrate_library id false (fun _ _ => some "x") "T" true
        ⟨(migrate_library id false (fun _ _ => some "x") "T" true
            ⟨[⟨1, "/s/a.mp3", 5, "indexed", none⟩], [], [], []⟩
            [⟨"/s/a.mp3", 5, some "x"⟩]).files,
          [],
          (migrate_library id false (fun _ _ => some "x") "T" true
            ⟨[⟨1, "/s/a.mp3", 5, "indexed", none⟩], [], [], []⟩
            [⟨"/s/a.mp3", 5, some "x"⟩]).migrations,
          []⟩
        (migrate_library id false (fun _ _ => some "x") "T" true
          ⟨[⟨1, "/s/a.mp3", 5, "indexed", none⟩], [], [], []⟩
          [⟨"/s/a.mp3", 5, some "x"⟩]).fs).migrations
      = (migrate_library id false (fun _ _ => some "x") "T" true
          ⟨[⟨1, "/s/a.mp3", 5, "indexed", none⟩], [], [], []⟩
          [⟨"/s/a.mp3", 5, some "x"⟩]).migrations
    ∧ (migrate_library id false (fun _ _ => some "x") "T" true
        ⟨(migrate_library id false (fun _ _ => some "x") "T" true
            ⟨[⟨1, "/s/a.mp3", 5, "indexed", none⟩], [], [], []⟩
            [⟨"/s/a.mp3", 5, some "x"⟩]).files,
          [],
          (migrate_library id false (fun _ _ => some "x") "T" true
            ⟨[⟨1, "/s/a.mp3", 5, "indexed", none⟩], [], [], []⟩
            [⟨"/s/a.mp3", 5, some "x"⟩]).migrations,
          []⟩
        (migrate_library id false (fun _ _ => some "x") "T" true
          ⟨[⟨1, "/s/a.mp3", 5, "indexed", none⟩], [], [], []⟩
          [⟨"/s/a.mp3", 5, some "x"⟩]).fs).skipped = 0 := by
  have h := c1_amended id false (fun _ _ => some "x") "T" true
    ⟨[⟨1, "/s/a.mp3", 5, "indexed", none⟩], [], [], []⟩
    [⟨"/s/a.mp3", 5, some "x"⟩]
    (by intro fid; simp)
    (by decide) (by decide)
  obtain ⟨h1, h2, h3, h4, h5, h6, h7⟩ := h
  exact ⟨h1, h7 rfl⟩

/-- C6 witness: the amended sanitiser theorem applied at the concrete artist
"A/C". -/
theorem c6_amended_witness : sanitize_name "A/C" = "A C" :=
  (c6_amended "A/C").2.2

/-- C8 witness: a concrete walk with a mixed-case extension and a non-audio
file; the upper-case audio file is emitted (joined to its directory). -/
theorem c8_walker_output_witness :
    "d/a.MP3" ∈ get_files_sorted_by_location [("d", ["b.mp3", "a.MP3", "x.txt"])] := by
  have h := (c8_walker_output [("d", ["b.mp3", "a.MP3", "x.txt"])]).2 "d/a.MP3"
  exact h.mpr ⟨("d", ["b.mp3", "a.MP3", "x.txt"]), by decide, "a.MP3", by decide,
    by decide, rfl⟩

/-! ## Indexer state machine (modules/indexer.py) -/

/-- utils/io_optimizer.py `batch_files`: chunk the walker output; the
Python guard `len(batch) >= batch_size` makes a non-positive size behave
like size one.  The fuel (the length of the remaining list, which each
round strictly decreases) keeps the recursion structural. -/
def batch_files_go (batch_size : Nat) : Nat → List String → List (List String)
  | 0, _ => []
  | _ + 1, [] => []
  | fuel + 1, p :: rest =>
    (p :: rest).take (max batch_size 1) ::
      batch_files_go batch_size fuel ((p :: rest).drop (max batch_size 1))

def batch_files (batch_size : Nat) (l : List String) : List (List String) :=
  batch_files_go batch_size l.length l

/-- A `checkpoints` row (database/models.py `Checkpoint`) for the `index`
operation of one root directory. -/
structure CheckpointData where
  processed_files : List String
  progress : Nat
  total : Nat
deriving DecidableEq, Repr

/-- The environment of one `index_directory` run: the walker output for the
root, the configuration, the catalog rows already present, a per-file
ingestion oracle (`false` = stat/hash raised), the cooperative stop signal
(the flag is first observed true once `stopAfter` files have been handled),
and the 10-second wall-clock tick for periodic checkpoint saves. -/
structure IndexEnv where
  walkFiles : List String
  batch_size : Nat
  total_files : Nat
  dbFiles : List String
  ingestOk : String → Bool
  stopAfter : Option Nat
  checkpoint_enabled : Bool
  saveTick : Nat → Bool

/-- Running state of one `index_directory` run. -/
structure IndexState where
  processed_files : List String
  files_processed : Nat
  files_added : Nat
  files_skipped : Nat
  errors : List String
  db : List String
  checkpoint : Option CheckpointData
  progressEvents : List Nat
deriving Repr

/-- Number of files handled so far (each file moves exactly one of the
three counters). -/
def handledCount (st : IndexState) : Nat :=
  st.files_added + st.files_skipped + st.errors.length

/-- Reading of the cooperative stop flag. -/
def shouldStop (env : IndexEnv) (st : IndexState) : Bool :=
  match env.stopAfter with
  | none => false
  | some k => k ≤ handledCount st

/-- The per-file body of the indexing loop: skip files in the resumed
processed-set, skip files already in the catalog (adding them to the set),
otherwise stat+hash+insert (on per-file error, record the path and keep
going; note that only successful inserts advance `files_processed`). -/
def processFile (env : IndexEnv) (st : IndexState) (p : String) : IndexState :=
  if st.processed_files.contains p then
    { st with files_skipped := st.files_skipped + 1 }
  else if st.db.contains p then
    { st with
      files_skipped := st.files_skipped + 1
      processed_files := p :: st.processed_files }
  else if env.ingestOk p then
    { st with
      db := st.db ++ [p]
      files_added := st.files_added + 1
      files_processed := st.files_processed + 1
      processed_files := p :: st.processed_files }
  else
    { st with errors := st.errors ++ [p] }

/-- The inner `for file_path in batch` loop with its per-file stop check. -/
def processBatch (env : IndexEnv) : IndexState → List String → IndexState
  | st, [] => st
  | st, p :: rest =>
    if shouldStop env st then st
    else processBatch env (processFile env st p) rest

def mkCheckpoint (env : IndexEnv) (st : IndexState) : CheckpointData :=
  ⟨st.processed_files, st.files_processed, env.total_files⟩

/-- The outer batch loop: stop check, per-file work, commit, progress
callback (fired with the cumulative `files_processed`), periodic
checkpoint save. -/
def runBatches (env : IndexEnv) : List (List String) → Nat → IndexState → IndexState
  | [], _, st => st
  | b :: rest, i, st =>
    if shouldStop env st then st
    else
      let st1 := processBatch env st b
      let st2 := { st1 with
        progressEvents := st1.progressEvents ++ [st1.files_processed] }
      let st3 := if env.checkpoint_enabled && env.saveTick i then
          { st2 with checkpoint := some (mkCheckpoint env st2) }
        else st2
      runBatches env rest (i + 1) st3

/-- The `finally` clause of `index_directory`: when checkpointing is
enabled, CLEAR the checkpoint when `files_processed >= total_files` OR the
stop flag is set, otherwise save a final checkpoint. -/
def finalizeIndex (env : IndexEnv) (st : IndexState) : IndexState :=
  if env.checkpoint_enabled then
    if env.total_files ≤ st.files_processed || shouldStop env st then
      { st with checkpoint := none }
    else
      { st with checkpoint := some (mkCheckpoint env st) }
  else st

/-- modules/indexer.py `index_directory`: load the checkpoint when resuming,
run the batches, then apply the final checkpoint policy. -/
def index_directory (env : IndexEnv) (resume : Bool) (cp0 : Option CheckpointData) :
    IndexState :=
  let loaded :=
    if resume && env.checkpoint_enabled then
      match cp0 with
      | some cp => (cp.processed_files, cp.progress)
      | none => ([], 0)
    else ([], 0)
  finalizeIndex env
    (runBatches env (batch_files env.batch_size env.walkFiles) 0
      ⟨loaded.1, loaded.2, 0, 0, [], env.dbFiles, cp0, []⟩)

theorem finalizeIndex_checkpoint (env : IndexEnv) (st : IndexState)
    (hen : env.checkpoint_enabled = true) :
    ((finalizeIndex env st).checkpoint = none ↔
      (env.total_files ≤ (finalizeIndex env st).files_processed ∨
        shouldStop env (finalizeIndex env st) = true)) := by
  unfold finalizeIndex
  rw [hen]
  simp only [if_true]
  by_cases hc : (decide (env.total_files ≤ st.files_processed) || shouldStop env st) = true
  · rw [if_pos hc]
    constructor
    · intro _
      rcases Bool.or_eq_true_iff.mp hc with h | h
      · exact Or.inl (of_decide_eq_true h)
      · exact Or.inr h
    · intro _
      rfl
  · rw [if_neg hc]
    constructor
    · intro h
      simp at h
    · intro h
      exfalso
      rcases h with h | h
      · exact hc (Bool.or_eq_true_iff.mpr (Or.inl (decide_eq_true h)))
      · exact hc (Bool.or_eq_true_iff.mpr (Or.inr h))

/-- C2 (amended): with checkpointing enabled, the Checkpoint for the root is
absent after a run exactly when the run processed at least the estimated
total OR the cooperative stop flag was set.  In particular a run that
processed every file leaves no Checkpoint (as the claim says), but a run
stopped early ALSO leaves no Checkpoint — the `finally` clause clears it on
stop; a checkpoint survives only a run that ends incomplete without a stop
request. -/
theorem c2_amended (env : IndexEnv) (resume : Bool) (cp0 : Option CheckpointData)
    (hen : env.checkpoint_enabled = true) :
    ((index_directory env resume cp0).checkpoint = none ↔
      (env.total_files ≤ (index_directory env resume cp0).files_processed ∨
        shouldStop env (index_directory env resume cp0) = true)) :=
  finalizeIndex_checkpoint env _ hen

/-- C2 (counterexample): a two-file root indexed with batch size one, the
stop signal arriving after the first file: the run stops with
`files_processed = 1 < 2 = total`, yet the final Checkpoint is `none` —
the claim says a Checkpoint should still exist after a stopped partial
run. -/
theorem c2_counterexample :
    (index_directory
      ⟨["d/a.mp3", "d/b.mp3"], 1, 2, [], fun _ => true, some 1, true, fun _ => false⟩
      true none).checkpoint = none
    ∧ (index_directory
      ⟨["d/a.mp3", "d/b.mp3"], 1, 2, [], fun _ => true, some 1, true, fun _ => false⟩
      true none).files_processed = 1
    ∧ (1 : Nat) < 2 := by
  refine ⟨?_, ?_, by decide⟩
  · decide
  · decide

/-- C2 witness: the amended policy applied to a run that processes its whole
single-file root: the Checkpoint is cleared on true completion. -/
theorem c2_amended_witness :
    (index_directory ⟨["d/a.mp3"], 1, 1, [], fun _ => true, none, true, fun _ => false⟩
      true none).checkpoint = none := by
  have h := c2_amended
    ⟨["d/a.mp3"], 1, 1, [], fun _ => true, none, true, fun _ => false⟩ true none rfl
  exact h.mpr (Or.inl (by decide))

/-! ## Duplicate detector (modules/deduplicator.py) -/

/-- The `File.file_hash.isnot(None)` query of `_group_by_hash`. -/
def hashedFiles (files : List FileRec) : List FileRec :=
  files.filter fun f => f.file_hash.isSome

/-- `defaultdict(list)` insertion: append the file to its hash bucket,
creating the bucket at first sight (insertion order preserved). -/
def addToGroups (gs : List (String × List FileRec)) (h : String) (f : FileRec) :
    List (String × List FileRec) :=
  if gs.any fun g => g.1 == h then
    gs.map fun g => if g.1 == h then (g.1, g.2 ++ [f]) else g
  else gs ++ [(h, [f])]

def hashGroups (files : List FileRec) : List (String × List FileRec) :=
  files.foldl
    (fun gs f =>
      match f.file_hash with
      | some h => addToGroups gs h f
      | none => gs)
    []

/-- modules/deduplicator.py `_group_by_hash`: group the hashed files by hash
value and keep only the groups with more than one member. -/
def group_by_hash (files : List FileRec) : List (String × List FileRec) :=
  (hashGroups files).filter fun g => 1 < g.2.length

/-- `_analyze_duplicate_groups` for one group: score every member, then
`sort(key=score, reverse=True)` — a stable descending sort, modelled by
`mergeSort` with the comparator `b.score ≤ a.score` (equal scores keep the
first-encountered order, exactly as Python's stable sort). -/
def scoreLe (a b : FileRec × Int) : Bool := decide (b.2 ≤ a.2)

def analyze_group (score : FileRec → Int) (files : List FileRec) :
    List (FileRec × Int) :=
  (files.map fun f => (f, score f)).mergeSort scoreLe

/-- `_save_duplicate_groups` for one group: one `duplicates` row per member
with `is_primary = (file.id == primary.id)` where the primary is the head of
the sorted list. -/
def save_group (gid : String) (sorted : List (FileRec × Int)) : List DuplicateRec :=
  match sorted with
  | [] => []
  | p :: rest => (p :: rest).map fun sf => ⟨gid, sf.1.id, sf.1.id == p.1.id, sf.2⟩

theorem find?_pair_sublist {α : Type} (q : α → Bool) :
    ∀ (l : List α) (b c : α), l.find? q = some b → c ∈ l → q c = true → c ≠ b →
      List.Sublist [b, c] l := by
  intro l
  induction l with
  | nil =>
    intro b c hf
    simp at hf
  | cons x t ih =>
    intro b c hf hc hq hne
    by_cases hx : q x = true
    · rw [List.find?_cons_of_pos t hx] at hf
      have hxb : x = b := by injection hf
      subst hxb
      have hct : c ∈ t := by
        rcases List.mem_cons.mp hc with rfl | h
        · exact absurd rfl hne
        · exact h
      exact List.Sublist.cons₂ x (List.singleton_sublist.mpr hct)
    · rw [List.find?_cons_of_neg t (by simpa using hx)] at hf
      have hcx : c ≠ x := fun he => hx (he ▸ hq)
      have hct : c ∈ t := by
        rcases List.mem_cons.mp hc with rfl | h
        · exact absurd rfl hcx
        · exact h
      exact (ih b c hf hct hq hne).cons x

theorem hashGroups_sublist :
    ∀ (l : List FileRec) (gs : List (String × List FileRec)) (big : List FileRec),
      (∀ g ∈ gs, List.Sublist g.2 big) →
      ∀ g ∈ l.foldl (fun gs f =>
          match f.file_hash with
          | some h => addToGroups gs h f
          | none => gs) gs,
        List.Sublist g.2 (big ++ l) := by
  intro l
  induction l with
  | nil =>
    intro gs big hinv g hg
    rw [List.append_nil]
    exact hinv g hg
  | cons f t ih =>
    intro gs big hinv g hg
    have hstep : ∀ g' ∈ (match f.file_hash with
        | some h => addToGroups gs h f
        | none => gs), List.Sublist g'.2 (big ++ [f]) := by
      intro g' hg'
      cases hh : f.file_hash with
      | none =>
        rw [hh] at hg'
        exact (hinv g' hg').trans (List.sublist_append_left big [f])
      | some hv =>
        rw [hh] at hg'
        have hg2 : g' ∈ addToGroups gs hv f := hg'
        unfold addToGroups at hg2
        by_cases hany : (gs.any fun g => g.1 == hv) = true
        · rw [if_pos hany] at hg2
          rcases List.mem_map.mp hg2 with ⟨g0, hg0, rfl⟩
          by_cases hb : g0.1 == hv
          · rw [if_pos hb]
            exact List.Sublist.append (hinv g0 hg0) (List.Sublist.refl [f])
          · rw [if_neg hb]
            exact (hinv g0 hg0).trans (List.sublist_append_left big [f])
        · rw [if_neg hany] at hg2
          rcases List.mem_append.mp hg2 with h | h
          · exact (hinv g' h).trans (List.sublist_append_left big [f])
          · rw [List.mem_singleton.mp h]
            exact List.sublist_append_right big [f]
    have := ih _ (big ++ [f]) hstep g hg
    rwa [List.append_assoc, List.singleton_append] at this

theorem group_by_hash_sublist (files : List FileRec) :
    ∀ g ∈ group_by_hash files, List.Sublist g.2 files := by
  intro g hg
  have h1 : g ∈ hashGroups files := (List.mem_filter.mp hg).1
  have h2 := hashGroups_sublist files [] []
    (by intro g' hg'; cases hg') g h1
  simpa using h2

theorem scoreLe_trans : ∀ (a b c : FileRec × Int),
    scoreLe a b → scoreLe b c → scoreLe a c := by
  intro a b c hab hbc
  simp only [scoreLe, decide_eq_true_eq] at hab hbc ⊢
  exact le_trans hbc hab

theorem scoreLe_total : ∀ (a b : FileRec × Int), scoreLe a b || scoreLe b a := by
  intro a b
  simp only [scoreLe]
  rcases le_total a.2 b.2 with h | h
  · simp [h]
  · simp [h]

theorem pair_sublist_cons_self {α : Type} {x y : α} {rest : List α}
    (h : List.Sublist [x, y] (y :: rest)) (hnd : (y :: rest).Nodup) : x = y := by
  cases h with
  | cons _ h' =>
    exfalso
    have hmem : y ∈ rest := h'.subset (by simp)
    exact (List.nodup_cons.mp hnd).1 hmem
  | cons₂ _ _ => rfl

theorem analyze_group_spec (score : FileRec → Int) (l : List FileRec) (gid : String)
    (hne : l ≠ []) (hnd : (l.map FileRec.id).Nodup) :
    ((save_group gid (analyze_group score l)).countP (fun r => r.is_primary)) = 1
    ∧ ∃ p ∈ save_group gid (analyze_group score l),
        p.is_primary = true
        ∧ (∀ r ∈ save_group gid (analyze_group score l),
            r.quality_score ≤ p.quality_score)
        ∧ (l.find? fun f => decide (score f = p.quality_score)).map FileRec.id
            = some p.file_id := by
  have hperm : (analyze_group score l).Perm (l.map fun f => (f, score f)) :=
    List.mergeSort_perm (l.map fun f => (f, score f)) scoreLe
  have hsne : analyze_group score l ≠ [] := by
    intro h
    have hl := hperm.length_eq
    rw [h, List.length_nil, List.length_map] at hl
    exact hne (List.length_eq_zero.mp hl.symm)
  obtain ⟨p0, rest, hps⟩ : ∃ p0 rest, analyze_group score l = p0 :: rest := by
    cases hs : analyze_group score l with
    | nil => exact absurd hs hsne
    | cons a t => exact ⟨a, t, rfl⟩
  have hsorted : (analyze_group score l).Pairwise (fun a b => scoreLe a b = true) :=
    List.sorted_mergeSort scoreLe_trans scoreLe_total (l.map fun f => (f, score f))
  have hp0mem : p0 ∈ l.map fun f => (f, score f) :=
    hperm.mem_iff.mp (by rw [hps]; exact List.mem_cons_self _ _)
  obtain ⟨f0, hf0l, hf0eq⟩ := List.mem_map.mp hp0mem
  have hp1 : p0.1 = f0 := by rw [← hf0eq]
  have hp2 : p0.2 = score f0 := by rw [← hf0eq]
  have hnodupl : l.Nodup := List.Nodup.of_map FileRec.id hnd
  have hpairinj : Function.Injective (fun f : FileRec => (f, score f)) := by
    intro x y hxy
    exact congrArg Prod.fst hxy
  have hscored_nodup : (l.map fun f => (f, score f)).Nodup := hnodupl.map hpairinj
  have hsorted_nodup : (analyze_group score l).Nodup :=
    hperm.nodup_iff.mpr hscored_nodup
  have hrows : save_group gid (analyze_group score l)
      = (p0 :: rest).map fun sf =>
          (⟨gid, sf.1.id, sf.1.id == p0.1.id, sf.2⟩ : DuplicateRec) := by
    rw [hps]
    rfl
  constructor
  · rw [hrows, List.countP_map]
    have hstep1 : ((p0 :: rest).countP
        ((fun r : DuplicateRec => r.is_primary) ∘ fun sf =>
          (⟨gid, sf.1.id, sf.1.id == p0.1.id, sf.2⟩ : DuplicateRec)))
        = (analyze_group score l).countP fun sf => sf.1.id == p0.1.id := by
      rw [hps]
      rfl
    rw [hstep1, hperm.countP_eq, List.countP_map]
    have hstep2 : (l.countP ((fun sf : FileRec × Int => sf.1.id == p0.1.id) ∘ fun f =>
        (f, score f))) = l.countP fun f => f.id == p0.1.id := rfl
    rw [hstep2]
    have hstep3 : (l.countP fun f => f.id == p0.1.id)
        = (l.map FileRec.id).countP fun i => i == p0.1.id := by
      rw [List.countP_map]
      rfl
    rw [hstep3]
    have hmem : p0.1.id ∈ l.map FileRec.id := by
      rw [hp1]
      exact List.mem_map_of_mem FileRec.id hf0l
    have := List.count_eq_one_of_mem hnd hmem
    simpa [List.count] using this
  · refine ⟨⟨gid, p0.1.id, p0.1.id == p0.1.id, p0.2⟩, ?_, by simp, ?_, ?_⟩
    · rw [hrows]
      exact List.mem_map_of_mem _ (List.mem_cons_self _ _)
    · intro r hr
      rw [hrows] at hr
      rcases List.mem_map.mp hr with ⟨sf, hsf, rfl⟩
      show sf.2 ≤ p0.2
      rcases List.mem_cons.mp (hps ▸ hsf : sf ∈ p0 :: rest) with rfl | hsfr
      · exact le_refl _
      · have hpair := List.pairwise_cons.mp (hps ▸ hsorted)
        have := hpair.1 sf hsfr
        simpa [scoreLe] using this
    · show (l.find? fun f => decide (score f = p0.2)).map FileRec.id = some p0.1.id
      have hq0 : (fun f => decide (score f = p0.2)) f0 = true := by
        rw [hp2]
        simp
      have hfs : (l.find? fun f => decide (score f = p0.2)).isSome :=
        List.find?_isSome.mpr ⟨f0, hf0l, hq0⟩
      obtain ⟨f1, hfind⟩ := Option.isSome_iff_exists.mp hfs
      have hq1 := List.find?_some hfind
      have hm1 := List.mem_of_find?_eq_some hfind
      have hf1f0 : f1 = f0 := by
        by_contra hneq
        have hsub := find?_pair_sublist (fun f => decide (score f = p0.2)) l f1 f0
          hfind hf0l hq0 (fun he => hneq he.symm)
        have hsub2 : List.Sublist [(f1, score f1), (f0, score f0)]
            (l.map fun f => (f, score f)) := by
          have := hsub.map (fun f => (f, score f))
          simpa using this
        have hab : scoreLe (f1, score f1) (f0, score f0) = true := by
          simp only [scoreLe, decide_eq_true_eq]
          have h1 : score f1 = p0.2 := of_decide_eq_true hq1
          rw [h1, hp2]
        have hsub3 := List.pair_sublist_mergeSort scoreLe_trans scoreLe_total hab hsub2
        rw [hf0eq] at hsub3
        have hsub4 : List.Sublist [(f1, score f1), p0] (p0 :: rest) := by
          rw [← hps]
          exact hsub3
        have heq := pair_sublist_cons_self hsub4 (hps ▸ hsorted_nodup)
        have : f1 = p0.1 := congrArg Prod.fst heq
        rw [hp1] at this
        exact hneq this
      rw [hfind, hf1f0, ← hp1]
      rfl

/-- C3: for every persisted duplicate group (entries sharing a partial hash,
group size > 1, catalog ids distinct), exactly one saved row carries
`is_primary`, its quality score is maximal in the group, and on ties the
primary is the first-encountered member: the first group member whose score
equals the primary score is exactly the file recorded as primary. -/
theorem c3_primary_election (score : FileRec → Int) (files : List FileRec)
    (gid : String) (hnd : (files.map FileRec.id).Nodup) :
    ∀ g ∈ group_by_hash files,
      1 < g.2.length
      ∧ ((save_group gid (analyze_group score g.2)).countP fun r => r.is_primary) = 1
      ∧ ∃ p ∈ save_group gid (analyze_group score g.2),
          p.is_primary = true
          ∧ (∀ r ∈ save_group gid (analyze_group score g.2),
              r.quality_score ≤ p.quality_score)
          ∧ (g.2.find? fun f => decide (score f = p.quality_score)).map FileRec.id
              = some p.file_id := by
  intro g hg
  have hsub := group_by_hash_sublist files g hg
  have hlen : 1 < g.2.length := of_decide_eq_true (List.mem_filter.mp hg).2
  have hne : g.2 ≠ [] := by
    intro h
    rw [h] at hlen
    simp at hlen
  have hndg : (g.2.map FileRec.id).Nodup := hnd.sublist (hsub.map FileRec.id)
  exact ⟨hlen, analyze_group_spec score g.2 gid hne hndg⟩

/-- C3 witness: two same-hash files with tied scores — the saved rows carry
exactly one primary flag, and it sits on the first-encountered file (id 1). -/
theorem c3_primary_election_witness :
    ((save_group "g" (analyze_group (fun _ => (5 : Int))
      [⟨1, "a", 5, "indexed", some "h"⟩, ⟨2, "b", 5, "indexed", some "h"⟩])).countP
      fun r => r.is_primary) = 1
    ∧ ∃ p ∈ save_group "g" (analyze_group (fun _ => (5 : Int))
        [⟨1, "a", 5, "indexed", some "h"⟩, ⟨2, "b", 5, "indexed", some "h"⟩]),
        p.is_primary = true ∧ p.file_id = 1 := by
  have h := c3_primary_election (fun _ => (5 : Int))
    [⟨1, "a", 5, "indexed", some "h"⟩, ⟨2, "b", 5, "indexed", some "h"⟩] "g"
    (by decide)
    ("h", [⟨1, "a", 5, "indexed", some "h"⟩, ⟨2, "b", 5, "indexed", some "h"⟩])
    (by decide)
  obtain ⟨p, hp, hprim, hmax, hfind⟩ := h.2.2
  refine ⟨h.2.1, p, hp, hprim, ?_⟩
  have : ((([⟨1, "a", 5, "indexed", some "h"⟩,
      ⟨2, "b", 5, "indexed", some "h"⟩] : List FileRec).find?
        fun f => decide ((fun _ => (5 : Int)) f = p.quality_score)).map FileRec.id)
      = some p.file_id := hfind
  by_cases h5 : (5 : Int) = p.quality_score
  · simp only [List.find?, h5, decide_eq_true_eq, if_pos] at this
    simp [h5] at this
    exact this.symm
  · rw [List.find?] at this
    simp [h5] at this

/-! ## Progress monotonicity (claim C9) -/

/-- Invariant of the indexer's progress log: the emitted values are
non-decreasing and bounded by the current cumulative count. -/
def indexEventsOk (st : IndexState) : Prop :=
  st.progressEvents.Pairwise (· ≤ ·) ∧ ∀ e ∈ st.progressEvents, e ≤ st.files_processed

theorem processFile_events (env : IndexEnv) (st : IndexState) (p : String) :
    (processFile env st p).progressEvents = st.progressEvents := by
  unfold processFile
  split
  · rfl
  · split
    · rfl
    · split
      · rfl
      · rfl

theorem processFile_fp_le (env : IndexEnv) (st : IndexState) (p : String) :
    st.files_processed ≤ (processFile env st p).files_processed := by
  unfold processFile
  split
  · exact Nat.le_refl _
  · split
    · exact Nat.le_refl _
    · split
      · exact Nat.le_succ _
      · exact Nat.le_refl _

theorem processBatch_events (env : IndexEnv) :
    ∀ (b : List String) (st : IndexState),
      (processBatch env st b).progressEvents = st.progressEvents := by
  intro b
  induction b with
  | nil => intro st; rfl
  | cons p rest ih =>
    intro st
    unfold processBatch
    by_cases hs : shouldStop env st
    · simp [hs]
    · simp only [hs, Bool.false_eq_true, if_false]
      rw [ih (processFile env st p), processFile_events]

theorem processBatch_fp_le (env : IndexEnv) :
    ∀ (b : List String) (st : IndexState),
      st.files_processed ≤ (processBatch env st b).files_processed := by
  intro b
  induction b with
  | nil => intro st; exact Nat.le_refl _
  | cons p rest ih =>
    intro st
    unfold processBatch
    by_cases hs : shouldStop env st
    · simp [hs]
    · simp only [hs, Bool.false_eq_true, if_false]
      exact (processFile_fp_le env st p).trans (ih (processFile env st p))

theorem runBatches_eventsOk (env : IndexEnv) :
    ∀ (bs : List (List String)) (i : Nat) (st : IndexState),
      indexEventsOk st → indexEventsOk (runBatches env bs i st) := by
  intro bs
  induction bs with
  | nil => intro i st h; exact h
  | cons b rest ih =>
    intro i st h
    unfold runBatches
    by_cases hs : shouldStop env st
    · simpa [hs] using h
    · simp only [hs, Bool.false_eq_true, if_false]
      have h1 : indexEventsOk (processBatch env st b) := by
        refine ⟨?_, ?_⟩
        · rw [processBatch_events]
          exact h.1
        · rw [processBatch_events]
          intro e he
          exact (h.2 e he).trans (processBatch_fp_le env b st)
      have h2 : indexEventsOk { processBatch env st b with
          progressEvents := (processBatch env st b).progressEvents ++
            [(processBatch env st b).files_processed] } := by
        refine ⟨?_, ?_⟩
        · rw [List.pairwise_append]
          refine ⟨h1.1, List.pairwise_singleton _ _, ?_⟩
          intro a ha e he
          rw [List.mem_singleton.mp he]
          exact h1.2 a ha
        · intro e he
          rcases List.mem_append.mp he with h' | h'
          · exact h1.2 e h'
          · rw [List.mem_singleton.mp h']
      by_cases ht : (env.checkpoint_enabled && env.saveTick i) = true
      · rw [if_pos ht]
        exact ih (i + 1) _ ⟨h2.1, h2.2⟩
      · rw [if_neg ht]
        exact ih (i + 1) _ h2

theorem finalizeIndex_events (env : IndexEnv) (st : IndexState) :
    (finalizeIndex env st).progressEvents = st.progressEvents := by
  unfold finalizeIndex
  by_cases h1 : env.checkpoint_enabled
  · by_cases h2 : (decide (env.total_files ≤ st.files_processed) || shouldStop env st) = true
    · simp [h1, h2]
    · simp [h1, h2]
  · simp [h1]

/-- Invariant of the migrator's progress log. -/
def migEventsOk (st : MigLoopState) : Prop :=
  st.progressEvents.Pairwise (· ≤ ·) ∧ ∀ e ∈ st.progressEvents, e ≤ st.idx

theorem migrateStep_eventsOk (H : String → String) (verifyCfg : Bool)
    (copyContent : String → String → Option String)
    (target_base : String) (metadata : List MetadataRec)
    (st : MigLoopState) (f : FileRec) (h : migEventsOk st) :
    migEventsOk (migrateStep H verifyCfg copyContent target_base metadata st f) := by
  have happend : ∀ (st' : MigLoopState), st'.progressEvents = st.progressEvents →
      st'.idx = st.idx + 1 →
      st'.progressEvents.Pairwise (· ≤ ·) ∧ ∀ e ∈ st'.progressEvents, e ≤ st'.idx := by
    intro st' he hi
    rw [he, hi]
    exact ⟨h.1, fun e hee => (h.2 e hee).trans (Nat.le_succ _)⟩
  have happend2 : ∀ (st' : MigLoopState),
      st'.progressEvents = st.progressEvents ++ [st.idx + 1] →
      st'.idx = st.idx + 1 →
      st'.progressEvents.Pairwise (· ≤ ·) ∧ ∀ e ∈ st'.progressEvents, e ≤ st'.idx := by
    intro st' he hi
    rw [he, hi]
    constructor
    · rw [List.pairwise_append]
      refine ⟨h.1, List.pairwise_singleton _ _, ?_⟩
      intro a ha e hee
      rw [List.mem_singleton.mp hee]
      exact (h.2 a ha).trans (Nat.le_succ _)
    · intro e hee
      rcases List.mem_append.mp hee with h' | h'
      · exact (h.2 e h').trans (Nat.le_succ _)
      · rw [List.mem_singleton.mp h']
  unfold migrateStep
  by_cases hc : hasCompletedMigration st.migrations f.id
  · simp only [hc, if_true]
    exact happend _ rfl rfl
  · simp only [hc, Bool.false_eq_true, if_false]
    by_cases hs : (migrate_file H verifyCfg copyContent st.fs f.source_path
        (get_target_path target_base (metadata.find? fun m => m.file_id == f.id) f)).success
    · simp only [hs, if_true]
      exact happend2 _ rfl rfl
    · simp only [hs, Bool.false_eq_true, if_false]
      exact happend2 _ rfl rfl

/-- The progress values reported while `_group_by_hash` enumerates `n`
hashed files: `i + 1` at every tenth index, then the final `n`. -/
def groupingEvents (n : Nat) : List Nat :=
  (((List.range n).filter fun i => i % 10 == 0).map (· + 1)) ++ [n]

/-- The progress values reported while `_analyze_duplicate_groups` walks
the `g` duplicate groups: the bare index at every tenth group. -/
def analysisEvents (g : Nat) : List Nat :=
  (List.range g).filter fun i => i % 10 == 0

/-- The full sequence of `progress` values one `find_duplicates` run passes
to the callback: the grouping phase over the hashed files, then the
analysis phase over the persisted groups. -/
def find_duplicates_events (files : List FileRec) : List Nat :=
  groupingEvents (hashedFiles files).length
    ++ analysisEvents (group_by_hash files).length

theorem groupingEvents_monotone (n : Nat) :
    (groupingEvents n).Pairwise (· ≤ ·) := by
  unfold groupingEvents
  rw [List.pairwise_append]
  refine ⟨?_, List.pairwise_singleton _ _, ?_⟩
  · rw [List.pairwise_map]
    have h1 : ((List.range n).filter fun i => i % 10 == 0).Pairwise (· < ·) :=
      List.Pairwise.sublist (List.filter_sublist _) (List.pairwise_lt_range n)
    exact h1.imp fun h => Nat.succ_le_succ (Nat.le_of_lt h)
  · intro a ha e he
    rw [List.mem_singleton.mp he]
    rcases List.mem_map.mp ha with ⟨i, hi, rfl⟩
    have : i ∈ List.range n := (List.mem_filter.mp hi).1
    exact Nat.succ_le_of_lt (List.mem_range.mp this)

theorem analysisEvents_monotone (g : Nat) :
    (analysisEvents g).Pairwise (· ≤ ·) := by
  unfold analysisEvents
  exact (List.Pairwise.sublist (List.filter_sublist _) (List.pairwise_lt_range g)).imp
    fun h => Nat.le_of_lt h

/-- C9 (counterexample): two files sharing a hash.  The duplicate-detection
run reports progress 1 and 2 while grouping, then 0 when the analysis phase
starts — the sequence [1, 2, 0] is not monotonically non-decreasing, so the
claim fails for the duplicate-detection stage. -/
theorem c9_counterexample :
    find_duplicates_events
        [⟨1, "a", 5, "indexed", some "h"⟩, ⟨2, "b", 5, "indexed", some "h"⟩]
      = [1, 2, 0]
    ∧ ¬ ([1, 2, 0] : List Nat).Pairwise (· ≤ ·) := by
  constructor
  · rfl
  · intro h
    have h2 := (List.pairwise_cons.mp h).1 0 (by simp)
    omega

/-- C9 (amended): the indexing and migration stage runs emit monotonically
non-decreasing progress values; the duplicate-detection run is monotone
within each of its two phases (hash grouping, then group analysis) but
resets the count to zero between the phases. -/
theorem c9_amended :
    (∀ (env : IndexEnv) (resume : Bool) (cp0 : Option CheckpointData),
      (index_directory env resume cp0).progressEvents.Pairwise (· ≤ ·))
    ∧ (∀ (H : String → String) (verifyCfg : Bool)
        (copyContent : String → String → Option String)
        (target_base : String) (skip_duplicates : Bool) (cat : Catalog) (fs : FS),
      (migrate_library H verifyCfg copyContent target_base skip_duplicates
        cat fs).progressEvents.Pairwise (· ≤ ·))
    ∧ (∀ n, (groupingEvents n).Pairwise (· ≤ ·))
    ∧ (∀ g, (analysisEvents g).Pairwise (· ≤ ·)) := by
  refine ⟨?_, ?_, groupingEvents_monotone, analysisEvents_monotone⟩
  · intro env resume cp0
    unfold index_directory
    rw [finalizeIndex_events]
    have h := runBatches_eventsOk env (batch_files env.batch_size env.walkFiles) 0
      ⟨(if resume && env.checkpoint_enabled then
          match cp0 with
          | some cp => (cp.processed_files, cp.progress)
          | none => ([], 0)
        else ([], 0)).1,
        (if resume && env.checkpoint_enabled then
          match cp0 with
          | some cp => (cp.processed_files, cp.progress)
          | none => ([], 0)
        else ([], 0)).2, 0, 0, [], env.dbFiles, cp0, []⟩
      ⟨List.Pairwise.nil, by intro e he; cases he⟩
    exact h.1
  · intro H verifyCfg copyContent target_base skip_duplicates cat fs
    have h := foldl_preserves
      (migrateStep H verifyCfg copyContent target_base cat.metadata) migEventsOk
      (fun s g hg =>
        migrateStep_eventsOk H verifyCfg copyContent target_base cat.metadata s g hg)
      (cat.files.filter (isCandidate cat.duplicates skip_duplicates))
      ⟨cat.files, cat.migrations, fs, 0, 0, 0, [], 0, [], []⟩
      ⟨List.Pairwise.nil, by intro e he; cases he⟩
    exact h.1
